import Mathlib

/-!
# Path confinement in `fs/fs.go`

A shallow embedding of the package `fs` of go-safe (`src/fs/fs.go`) and of the
standard-library functions it calls (`path/filepath` on a Unix target, and
`strings.Contains`), followed by theorems about `sanitize`, `initSecureFS`,
`ReadDir`, `SetWhiteListPattern` and `checkDirPermissions`.

Modelling conventions

* A Go `string` is a sequence of bytes and is modelled as a `List Char`.  Every
  function below inspects a string only by comparing its elements with `'/'`
  and `'.'`, copies all other elements unchanged, and never decodes runes, so
  nothing depends on what the other elements are.
* The package-level variable `s *SecureFS` is an explicit `Option SecureFS`
  that every operation receives and returns; `none` is the nil pointer.
* A Go `error` is modelled by its message.  A run-time panic is a separate
  outcome, `Result.panic`.
* The library functions `regexp.Compile`, `os.ReadDir` and `os.Stat` are
  parameters of the operations that call them; `os.Getwd` is a field of `Env`.
* Loops over string indices become recursion over the unread suffix.  The fuel
  argument of a loop is an upper bound on its number of iterations (the length
  of the string it reads); when the fuel is `0` the unread suffix is empty and
  the loop has ended in the source as well.
-/

namespace GoSafe

/-! ## Standard library: `strings`, `path/filepath` (Unix) -/

/-- The constant `filepath.Separator` on Unix. -/
def Separator : Char := '/'

/-- The function `strings.Contains(s, substr)`: `substr` occurs in `s` as a contiguous block. -/
def Contains : List Char → List Char → Bool
  | [], substr => substr.isEmpty
  | c :: cs, substr => substr.isPrefixOf (c :: cs) || Contains cs substr

/-- The function `filepath.IsAbs` on Unix: `strings.HasPrefix(path, "/")`. -/
def IsAbs (path : List Char) : Bool :=
  path.head? = some Separator

/-- The inner loop of the `..` case of `filepath.Clean`, as a function of `out.w`:
`for out.w > dotdot && !os.IsPathSeparator(out.index(out.w)) { out.w-- }`. -/
def backtrack (buf : List Char) (dotdot : Nat) : Nat → Nat
  | 0 => 0
  | w + 1 =>
    if w + 1 > dotdot && buf.getD (w + 1) Separator != Separator then backtrack buf dotdot w
    else w + 1

/-- The main loop `for r < n` of `filepath.Clean`.  `path` is the unread suffix
`path[r:]`, `out` the written part `buf[:w]` of the output buffer. -/
def cleanLoop (rooted : Bool) : Nat → List Char → List Char → Nat → List Char
  | 0, _, out, _ => out
  | fuel + 1, path, out, dotdot =>
    match path with
    | [] => out
    | c :: rest =>
      if c = Separator then
        -- empty path element
        cleanLoop rooted fuel rest out dotdot
      else if c = '.' ∧ (rest = [] ∨ rest.head? = some Separator) then
        -- . element
        cleanLoop rooted fuel rest out dotdot
      else if c = '.' ∧ rest.head? = some '.' ∧
          (rest.tail = [] ∨ rest.tail.head? = some Separator) then
        -- .. element: remove to last separator
        if out.length > dotdot then
          -- can backtrack
          cleanLoop rooted fuel rest.tail
            (out.take (backtrack out dotdot (out.length - 1))) dotdot
        else if !rooted then
          -- cannot backtrack, but not rooted, so append .. element
          let out1 := if out.length > 0 then out ++ [Separator] else out
          let out2 := out1 ++ ['.', '.']
          cleanLoop rooted fuel rest.tail out2 out2.length
        else
          cleanLoop rooted fuel rest.tail out dotdot
      else
        -- real path element: add slash if needed, copy element
        let out1 :=
          if (rooted ∧ out.length ≠ 1) ∨ (¬ rooted ∧ out.length ≠ 0) then out ++ [Separator]
          else out
        cleanLoop rooted fuel ((c :: rest).dropWhile (· ≠ Separator))
          (out1 ++ (c :: rest).takeWhile (· ≠ Separator)) dotdot

/-- The function `filepath.Clean` on Unix (no volume name, `FromSlash` is the identity). -/
def Clean (path : List Char) : List Char :=
  if path = [] then ['.']
  else
    let rooted : Bool := path.head? = some Separator
    let out :=
      if rooted then cleanLoop rooted path.length path.tail [Separator] 1
      else cleanLoop rooted path.length path [] 0
    -- Turn empty string into "."
    if out = [] then ['.'] else out

/-- The function `filepath.Join` on Unix, for two elements: the elements from the first
non-empty one on are joined with the separator and cleaned. -/
def Join (a b : List Char) : List Char :=
  if a ≠ [] then Clean (a ++ Separator :: b)
  else if b ≠ [] then Clean b
  else []

/-- The process environment: what `os.Getwd` returns. -/
structure Env where
  Getwd : Except String (List Char)

/-- The function `filepath.Abs` on Unix. -/
def Abs (env : Env) (path : List Char) : Except String (List Char) :=
  if IsAbs path then .ok (Clean path)
  else
    match env.Getwd with
    | .error err => .error err
    | .ok wd => .ok (Join wd path)

/-- The loop of `filepath.Rel` that positions `base[b0:bi]` and `targ[t0:ti]` at the
first differing elements.  The arguments are `base[b0:]` and `targ[t0:]`; the result is
`(base[b0:bi], base[b0:], targ[t0:])` on leaving the loop. -/
def relLoop : Nat → List Char → List Char → List Char × List Char × List Char
  | 0, b, t => ([], b, t)
  | fuel + 1, b, t =>
    if b ≠ [] ∧ t ≠ [] then
      let bw := b.takeWhile (· ≠ Separator)
      let tw := t.takeWhile (· ≠ Separator)
      if tw ≠ bw then (bw, b, t)
      else
        -- `if bi < bl { bi++ }`, `if ti < tl { ti++ }`
        relLoop fuel ((b.dropWhile (· ≠ Separator)).tail) ((t.dropWhile (· ≠ Separator)).tail)
    else ([], b, t)

/-- The message of the error that `filepath.Rel` returns. -/
def relError (basepath targpath : List Char) : String :=
  "Rel: can't make " ++ String.mk targpath ++ " relative to " ++ String.mk basepath

/-- The function `filepath.Rel` on Unix (no volume names, `sameWord` is equality).  The
theorems below use it on rooted paths only. -/
def Rel (basepath targpath : List Char) : Except String (List Char) :=
  let base := Clean basepath
  let targ := Clean targpath
  if targ = base then .ok ['.']
  else
    let base := if base = ['.'] then [] else base
    let baseSlashed : Bool := base.head? = some Separator
    let targSlashed : Bool := targ.head? = some Separator
    if baseSlashed ≠ targSlashed then .error (relError basepath targpath)
    else
      match relLoop base.length base targ with
      | (bw, bRest, tRest) =>
        if bw = ['.', '.'] then .error (relError basepath targpath)
        else if bRest ≠ [] then
          -- Base elements left. Must go up before going down.
          let seps := bRest.count Separator
          .ok (['.', '.'] ++ (List.replicate seps [Separator, '.', '.']).flatten ++
            (if tRest ≠ [] then Separator :: tRest else []))
        else .ok tRest

/-! ## The package `fs` -/

/-- A compiled regular expression, represented by the expression it was compiled from. -/
structure Regexp where
  expr : String
deriving DecidableEq, Repr

/-- The function `regexp.MustCompile` at the three literal patterns of `initSecureFS`,
which are valid RE2 expressions: it returns their compiled form and does not panic. -/
def MustCompile (pattern : String) : Regexp := ⟨pattern⟩

/-- The struct `SecureFS`. -/
structure SecureFS where
  safeBaseDir : List Char
  whitelistRegex : Regexp
  allowRelative : Bool
  strictMode : Bool
deriving DecidableEq, Repr

/-- The outcome of a call that returns `(value, error)`: a value with a nil error, a
non-nil error (its message), or a run-time panic. -/
inductive Result (α : Type) where
  | ok : α → Result α
  | error : String → Result α
  | panic : Result α
deriving DecidableEq, Repr

/-- The function `initSecureFS`: the returned error (if any) and the new value of `s`. -/
def initSecureFS (env : Env) (s : Option SecureFS) (baseDir : List Char) :
    Option String × Option SecureFS :=
  match Abs env baseDir with
  | .error err => (some ("securefs初始化失败: " ++ err), s)
  | .ok absDir =>
    let allowRelative := false
    let strictMode := false
    let pattern :=
      if strictMode then "^([\\w-]+/)*([\\w.]+)?$"
      else if allowRelative then "^(?:\\.+/)?([\\w-/]+)$"
      else "^([\\w-/]+)$"
    (none, some
      { safeBaseDir := absDir
        whitelistRegex := MustCompile pattern
        allowRelative := allowRelative
        strictMode := strictMode })

/-- The function `isInBaseDir`. -/
def isInBaseDir (target base : List Char) : Bool :=
  match Rel base target with
  | .error _ => false
  | .ok rel => !Contains rel ['.', '.']

/-- The message of `errors.New("路径不能为空")`. -/
def errEmptyPath : String := "路径不能为空"

/-- The message of `errors.New("禁止绝对路径")`. -/
def errAbsolutePath : String := "禁止绝对路径"

/-- The message of `errors.New("检测到相对路径")`. -/
def errRelativePath : String := "检测到相对路径"

/-- The message of `errors.New("路径越界访问")`. -/
def errOutOfBase : String := "路径越界访问"

/-- The function `sanitize`: its outcome and the value of `s` when it returns. -/
def sanitize (env : Env) (s : Option SecureFS) (rawPath : List Char) :
    Result (List Char) × Option SecureFS :=
  if rawPath = [] then (.error errEmptyPath, s)
  else
    let init : Option String × Option SecureFS :=
      if s.isNone then initSecureFS env s [Separator] else (none, s)
    match init with
    | (some err, s1) => (.error err, s1)
    | (none, none) => (.panic, none)
    | (none, some fs) =>
      if IsAbs rawPath then (.error errAbsolutePath, some fs)
      else if fs.allowRelative && Contains rawPath ['.', '.'] then
        (.error errRelativePath, some fs)
      else
        let fullPath := Join fs.safeBaseDir rawPath
        let cleanPath := Clean fullPath
        if !isInBaseDir cleanPath fs.safeBaseDir then (.error errOutOfBase, some fs)
        else (.ok cleanPath, some fs)

/-- A store based at `base` in the given mode, with the Default-mode pattern. -/
def storeAt (base : List Char) (allowRelative strictMode : Bool) : SecureFS :=
  { safeBaseDir := base
    whitelistRegex := MustCompile "^([\\w-/]+)$"
    allowRelative := allowRelative
    strictMode := strictMode }

/-- An environment whose working directory is `/`. -/
def envRoot : Env := ⟨.ok ['/']⟩

/-- The message of `fmt.Errorf("pattern不能为空")`. -/
def errEmptyPattern : String := "pattern不能为空"

/-- The function `SetWhiteListPattern`: the returned error (`Result.ok ()` is the nil
error) and the value of `s` when it returns.  `compile` is `regexp.Compile`.  The
assignment `s.whitelistRegex = compiled` dereferences `s`. -/
def SetWhiteListPattern (compile : String → Except String Regexp) (s : Option SecureFS)
    (pattern : String) : Result Unit × Option SecureFS :=
  if pattern.length = 0 then (.error errEmptyPattern, s)
  else
    match compile pattern with
    | .error err => (.error err, s)
    | .ok compiled =>
      match s with
      | none => (.panic, none)
      | some fs => (.ok (), some { fs with whitelistRegex := compiled })

/-- What a call that returns `([]fs.DirEntry, error)` yields: the entries and the error
(`none` is the nil error), or a run-time panic. -/
inductive Listing (α : Type) where
  | returned : List α → Option String → Listing α
  | panic : Listing α
deriving DecidableEq, Repr

/-- The function `ReadDir`: what it returns, the value of `s` when it returns, and the
paths on which the directory-listing capability `readDir` (`os.ReadDir`) was invoked, in
order. -/
def ReadDir {α : Type} (env : Env) (readDir : List Char → List α × Option String)
    (s : Option SecureFS) (name : List Char) :
    Listing α × Option SecureFS × List (List Char) :=
  match sanitize env s name with
  | (.error err, s1) => (.returned [] (some err), s1, [])
  | (.panic, s1) => (.panic, s1, [])
  | (.ok cleanPath, s1) =>
    (.returned (readDir cleanPath).1 (readDir cleanPath).2, s1, [cleanPath])

/-- The constant `fs.ModePerm`, the nine Unix permission bits. -/
def ModePerm : Nat := 0o777

/-- The method `FileMode.Perm`: `m & ModePerm`. -/
def Perm (m : Nat) : Nat := m &&& ModePerm

/-- The function `checkDirPermissions`.  `stat` is `os.Stat`, reduced to the `FileMode`
of the `FileInfo` that it returns; a `FileMode` is an unsigned 32-bit number. -/
def checkDirPermissions (stat : List Char → Except String Nat) (path : List Char)
    (required : Nat) : Bool :=
  match stat path with
  | .error _ => false
  | .ok mode => (Perm mode &&& required) == required

/-- A call of one of the four operations that touch the store. -/
inductive Op where
  | initSecureFS : List Char → Op
  | sanitize : List Char → Op
  | ReadDir : List Char → Op
  | SetWhiteListPattern : String → Op

/-- The value of `s` after one call, made in the environment `call.1`. -/
def step {α : Type} (compile : String → Except String Regexp)
    (readDir : List Char → List α × Option String) (s : Option SecureFS)
    (call : Env × Op) : Option SecureFS :=
  match call.2 with
  | .initSecureFS baseDir => (initSecureFS call.1 s baseDir).2
  | .sanitize rawPath => (sanitize call.1 s rawPath).2
  | .ReadDir name => (ReadDir call.1 readDir s name).2.1
  | .SetWhiteListPattern pattern => (SetWhiteListPattern compile s pattern).2

/-- The value of `s` after a sequence of calls that starts with `s` nil. -/
def run {α : Type} (compile : String → Except String Regexp)
    (readDir : List Char → List α × Option String) (calls : List (Env × Op)) :
    Option SecureFS :=
  calls.foldl (step compile readDir) none

/-- The mode invariant: a store that exists has both mode flags false. -/
def DefaultMode (s : Option SecureFS) : Prop :=
  ∀ fs, s = some fs → fs.allowRelative = false ∧ fs.strictMode = false

/-- A `regexp.Compile` that accepts every pattern but the one made of an open bracket. -/
def compileSample (pattern : String) : Except String Regexp :=
  if pattern = "[" then .error "error parsing regexp: missing closing ]"
  else .ok ⟨pattern⟩

/-- A directory listing in which every directory holds the entries `a` and `b`, except
`/srv/data/gone`, which does not exist. -/
def readDirSample (path : List Char) : List String × Option String :=
  if path = "/srv/data/gone".toList then ([], some "no such file or directory")
  else (["a", "b"], none)

/-- A `stat` in which every path but `/missing` exists, with mode `drwxr-x---`. -/
def statSample (path : List Char) : Except String Nat :=
  if path = "/missing".toList then .error "no such file or directory"
  else .ok (2147483648 + 0o750)

/-! ## Path elements

The proofs describe a rooted path by the list of its elements. -/

/-- The elements of a path: the blocks between separators. -/
def splitSep : List Char → List (List Char)
  | [] => [[]]
  | c :: cs =>
    if c = Separator then [] :: splitSep cs
    else
      match splitSep cs with
      | [] => [[c]]
      | w :: ws => (c :: w) :: ws

/-- Every element preceded by a separator. -/
def slashed : List (List Char) → List Char
  | [] => []
  | e :: es => Separator :: (e ++ slashed es)

/-- The elements joined by single separators. -/
def joinSep : List (List Char) → List Char
  | [] => []
  | e :: es => e ++ slashed es

/-- The rooted path with the given elements. -/
def rootedPath (es : List (List Char)) : List Char :=
  Separator :: joinSep es

/-- What the loop of `Clean` does with one element of a rooted path. -/
def normStep (stack : List (List Char)) (e : List Char) : List (List Char) :=
  if e = [] ∨ e = ['.'] then stack
  else if e = ['.', '.'] then stack.dropLast
  else stack ++ [e]

/-- The element stack after the loop of `Clean` has read the elements `es`. -/
def norm (stack es : List (List Char)) : List (List Char) :=
  es.foldl normStep stack

/-- A name: a non-empty element without separator. -/
def IsName (e : List Char) : Prop :=
  e ≠ [] ∧ Separator ∉ e

/-- A name other than `.` and `..`. -/
def IsReal (e : List Char) : Prop :=
  IsName e ∧ e ≠ ['.'] ∧ e ≠ ['.', '.']

/-- The loop of `Rel` on element lists: the first differing base element (or the empty
word), and the elements of base and target that are left. -/
def relComps : List (List Char) → List (List Char) →
    List Char × List (List Char) × List (List Char)
  | [], ts => ([], [], ts)
  | b :: bs, [] => ([], b :: bs, [])
  | b :: bs, t :: ts => if t ≠ b then (b, b :: bs, t :: ts) else relComps bs ts

/-- The store that the lazy initialisation `initSecureFS("/")` creates. -/
def rootStore : SecureFS :=
  { safeBaseDir := [Separator]
    whitelistRegex := MustCompile "^([\\w-/]+)$"
    allowRelative := false
    strictMode := false }

/-- The word characters of RE2, `\w`: `[0-9A-Za-z_]`. -/
def isWordChar (c : Char) : Bool :=
  c.isAlphanum || c = '_'

/-! ## Lemmas on elements -/

theorem splitSep_ne_nil (p : List Char) : splitSep p ≠ [] := by
  cases p with
  | nil => simp [splitSep]
  | cons c cs =>
    unfold splitSep
    split
    · simp
    · split <;> simp

theorem splitSep_append_sep (x y : List Char) :
    splitSep (x ++ Separator :: y) = splitSep x ++ splitSep y := by
  induction x with
  | nil => simp [splitSep]
  | cons c cs ih =>
    by_cases hc : c = Separator
    · simp [splitSep, hc, ih]
    · have hne := splitSep_ne_nil cs
      cases hs : splitSep cs with
      | nil => exact absurd hs hne
      | cons w ws => simp [splitSep, hc, ih, hs]

theorem splitSep_no_sep (p : List Char) : ∀ e ∈ splitSep p, Separator ∉ e := by
  induction p with
  | nil => simp [splitSep]
  | cons c cs ih =>
    by_cases hc : c = Separator
    · intro e he
      simp only [splitSep, hc, if_true, List.mem_cons] at he
      rcases he with rfl | he
      · simp
      · exact ih e he
    · cases hs : splitSep cs with
      | nil => exact absurd hs (splitSep_ne_nil cs)
      | cons w ws =>
        intro e he
        rw [hs] at ih
        simp only [splitSep, hc, if_false, hs, List.mem_cons] at he
        rcases he with rfl | he
        · have := ih w (by simp)
          simp only [List.mem_cons, not_or]
          exact ⟨fun h => hc h.symm, this⟩
        · exact ih e (by simp [he])

theorem slashed_cons (e : List Char) (es : List (List Char)) :
    slashed (e :: es) = Separator :: joinSep (e :: es) := rfl

theorem slashed_append (xs ys : List (List Char)) :
    slashed (xs ++ ys) = slashed xs ++ slashed ys := by
  induction xs with
  | nil => rfl
  | cons e es ih => simp [slashed, ih]

theorem joinSep_splitSep (p : List Char) : joinSep (splitSep p) = p := by
  induction p with
  | nil => rfl
  | cons c cs ih =>
    by_cases hc : c = Separator
    · cases hs : splitSep cs with
      | nil => exact absurd hs (splitSep_ne_nil cs)
      | cons w ws =>
        rw [hs] at ih
        simp [splitSep, hc, hs, joinSep, slashed]
        simpa [joinSep] using ih
    · cases hs : splitSep cs with
      | nil => exact absurd hs (splitSep_ne_nil cs)
      | cons w ws =>
        rw [hs] at ih
        simp [splitSep, hc, hs, joinSep]
        simpa [joinSep] using ih

theorem splitSep_of_no_sep (e : List Char) (h : Separator ∉ e) : splitSep e = [e] := by
  induction e with
  | nil => rfl
  | cons c cs ih =>
    simp only [List.mem_cons, not_or] at h
    have hc : c ≠ Separator := fun hh => h.1 hh.symm
    simp [splitSep, hc, ih h.2]

theorem splitSep_joinSep (es : List (List Char)) (hne : es ≠ [])
    (h : ∀ e ∈ es, Separator ∉ e) : splitSep (joinSep es) = es := by
  induction es with
  | nil => exact absurd rfl hne
  | cons e es ih =>
    cases es with
    | nil => simpa [joinSep, slashed] using splitSep_of_no_sep e (h e (by simp))
    | cons e2 es2 =>
      have h1 := ih (by simp) (fun x hx => h x (by simp [hx]))
      show splitSep (e ++ Separator :: joinSep (e2 :: es2)) = _
      rw [splitSep_append_sep, h1, splitSep_of_no_sep e (h e (by simp))]
      rfl

/-! ## Lemmas on `Contains` -/

theorem contains_nil : Contains [] ['.', '.'] = false := rfl

theorem contains_single (c : Char) : Contains [c] ['.', '.'] = false := by
  simp [Contains, List.isPrefixOf]

theorem contains_cons_cons (c d : Char) (cs : List Char) :
    Contains (c :: d :: cs) ['.', '.'] =
      (('.' == c && '.' == d) || Contains (d :: cs) ['.', '.']) := by
  rw [Contains]
  simp [List.isPrefixOf]

theorem contains_append_sep (x y : List Char) :
    Contains (x ++ Separator :: y) ['.', '.'] = (Contains x ['.', '.'] || Contains y ['.', '.']) := by
  induction x with
  | nil =>
    cases y with
    | nil => simp [contains_single, contains_nil]
    | cons d ds => simp [contains_cons_cons, contains_nil, Separator]
  | cons c cs ih =>
    cases cs with
    | nil =>
      simp only [List.cons_append, List.nil_append] at ih ⊢
      rw [contains_cons_cons, ih, contains_single, contains_nil]
      simp [Separator]
    | cons d ds =>
      simp only [List.cons_append] at ih ⊢
      rw [contains_cons_cons, ih, contains_cons_cons]
      simp [Bool.or_assoc]

theorem contains_joinSep (es : List (List Char)) :
    Contains (joinSep es) ['.', '.'] = es.any (fun e => Contains e ['.', '.']) := by
  induction es with
  | nil => rfl
  | cons e es ih =>
    cases es with
    | nil => simp [joinSep, slashed]
    | cons e2 es2 =>
      show Contains (e ++ Separator :: joinSep (e2 :: es2)) _ = _
      rw [contains_append_sep, ih]
      simp

/-! ## The loop of `Clean` on a rooted path -/

theorem rootedPath_nil : rootedPath [] = [Separator] := rfl

theorem rootedPath_cons (e : List Char) (es : List (List Char)) :
    rootedPath (e :: es) = slashed (e :: es) := rfl

theorem rootedPath_of_ne_nil (es : List (List Char)) (h : es ≠ []) :
    rootedPath es = slashed es := by
  cases es with
  | nil => exact absurd rfl h
  | cons e es => rfl

theorem splitSep_takeWhile (p : List Char) :
    splitSep p = p.takeWhile (· ≠ Separator) ::
      (match p.dropWhile (· ≠ Separator) with
        | [] => []
        | _ :: q => splitSep q) := by
  induction p with
  | nil => rfl
  | cons c cs ih =>
    by_cases hc : c = Separator
    · simp [splitSep, hc]
    · rw [splitSep, if_neg hc, ih]
      simp [hc]

theorem dropWhile_head (p : List Char) (d : Char) (q : List Char)
    (h : p.dropWhile (· ≠ Separator) = d :: q) : d = Separator := by
  have := List.head?_dropWhile_not (· ≠ Separator) p
  rw [h] at this
  simpa using this

theorem norm_nil (st : List (List Char)) : norm st [] = st := rfl

theorem norm_cons (st : List (List Char)) (e : List Char) (es : List (List Char)) :
    norm st (e :: es) = norm (normStep st e) es := rfl

theorem norm_append (st xs ys : List (List Char)) :
    norm st (xs ++ ys) = norm (norm st xs) ys := by
  simp [norm, List.foldl_append]

theorem normStep_nil (st : List (List Char)) : normStep st [] = st := by
  simp [normStep]

theorem norm_splitSep_step (st : List (List Char)) (p : List Char) :
    norm st (splitSep p) =
      norm (normStep st (p.takeWhile (· ≠ Separator)))
        (splitSep (p.dropWhile (· ≠ Separator))) := by
  rw [splitSep_takeWhile p, norm_cons]
  cases hd : p.dropWhile (· ≠ Separator) with
  | nil => simp [splitSep, norm_cons, norm_nil, normStep_nil]
  | cons d q =>
    have hd2 := dropWhile_head p d q hd
    subst hd2
    simp [splitSep, norm_cons, normStep_nil]

theorem getD_ne_of_not_mem (e : List Char) (a d : Char) (k : Nat) (hk : k < e.length)
    (ha : a ∉ e) : e.getD k d ≠ a := by
  intro h
  apply ha
  rw [← h, List.getD_eq_getElem _ _ hk]
  exact List.getElem_mem hk

theorem backtrack_spec (pre e : List Char) (he : Separator ∉ e) :
    ∀ k, k ≤ e.length → 1 ≤ pre.length + k →
      backtrack (pre ++ Separator :: e) 1 (pre.length + k) = max pre.length 1 := by
  intro k
  induction k with
  | zero =>
    intro _ h1
    obtain ⟨w, hw⟩ : ∃ w, pre.length = w + 1 := ⟨pre.length - 1, by omega⟩
    have hg : (pre ++ Separator :: e).getD (w + 1) Separator = Separator := by
      rw [← hw, List.getD_append_right _ _ _ _ (le_refl _)]
      simp
    simp only [Nat.add_zero, hw, backtrack, hg]
    simp
  | succ k ih =>
    intro hk _
    have hg : (pre ++ Separator :: e).getD (pre.length + k + 1) Separator ≠ Separator := by
      rw [List.getD_append_right _ _ _ _ (by omega)]
      have : pre.length + k + 1 - pre.length = k + 1 := by omega
      rw [this]
      simpa using getD_ne_of_not_mem e Separator Separator k (by omega) he
    show backtrack _ 1 (pre.length + k + 1) = _
    by_cases h0 : 1 ≤ pre.length + k
    · rw [backtrack]
      have hgt : pre.length + k + 1 > 1 := by omega
      simp only [hgt, decide_True, Bool.true_and, bne_iff_ne, ne_eq, hg, not_false_eq_true,
        if_true]
      exact ih (by omega) h0
    · have hp : pre.length = 0 := by omega
      have hk0 : k = 0 := by omega
      subst hk0
      simp [backtrack, hp]

theorem slashed_length_pos (es : List (List Char)) (h : es ≠ []) : 1 ≤ (slashed es).length := by
  cases es with
  | nil => exact absurd rfl h
  | cons e es => simp [slashed]

theorem backtrack_rootedPath (init : List (List Char)) (e : List Char) (he : IsName e) :
    (rootedPath (init ++ [e])).take
        (backtrack (rootedPath (init ++ [e])) 1 ((rootedPath (init ++ [e])).length - 1)) =
      rootedPath init := by
  have hlen : 1 ≤ e.length := List.length_pos.mpr he.1
  by_cases hi : init = []
  · subst hi
    have hr : rootedPath ([] ++ [e]) = [] ++ Separator :: e := by
      simp [rootedPath, joinSep, slashed]
    rw [hr]
    have h := backtrack_spec [] e he.2 e.length (le_refl _) (by simpa using hlen)
    simp only [List.length_nil, Nat.zero_add] at h
    have hl : ([] ++ Separator :: e).length - 1 = e.length := by simp
    rw [hl, h]
    simp [rootedPath, joinSep]
  · have hr : rootedPath (init ++ [e]) = slashed init ++ Separator :: e := by
      rw [rootedPath_of_ne_nil _ (by simp), slashed_append]
      simp [slashed]
    rw [hr]
    have hp := slashed_length_pos init hi
    have h := backtrack_spec (slashed init) e he.2 e.length (le_refl _) (by omega)
    have hl : (slashed init ++ Separator :: e).length - 1 = (slashed init).length + e.length := by
      simp
    rw [hl, h, max_eq_left hp, rootedPath_of_ne_nil _ hi]
    simp

theorem rootedPath_length (stack : List (List Char)) (h : ∀ e ∈ stack, IsName e) :
    (rootedPath stack).length = 1 ↔ stack = [] := by
  cases stack with
  | nil => simp [rootedPath, joinSep]
  | cons e es =>
    have he : 1 ≤ e.length := List.length_pos.mpr (h e (by simp)).1
    have hl : (rootedPath (e :: es)).length = 1 + e.length + (slashed es).length := by
      simp [rootedPath, joinSep]
      omega
    constructor
    · intro hh
      omega
    · intro hh
      exact absurd hh (by simp)

theorem rootedPath_push (stack : List (List Char)) (e : List Char)
    (h : ∀ x ∈ stack, IsName x) :
    (if (rootedPath stack).length ≠ 1 then rootedPath stack ++ [Separator]
      else rootedPath stack) ++ e = rootedPath (stack ++ [e]) := by
  by_cases hs : stack = []
  · subst hs
    simp [rootedPath, joinSep, slashed]
  · have hl : (rootedPath stack).length ≠ 1 := fun hh => hs ((rootedPath_length stack h).mp hh)
    rw [if_pos hl, rootedPath_of_ne_nil _ hs, rootedPath_of_ne_nil _ (by simp), slashed_append]
    simp [slashed]

theorem takeWhile_isName (c : Char) (rest : List Char) (hc : c ≠ Separator) :
    IsName ((c :: rest).takeWhile (· ≠ Separator)) := by
  constructor
  · simp [hc]
  · intro hmem
    have := List.mem_takeWhile_imp hmem
    simp at this

theorem normStep_names (stack : List (List Char)) (e : List Char)
    (h : ∀ x ∈ stack, IsName x) (he : IsName e) : ∀ x ∈ normStep stack e, IsName x := by
  unfold normStep
  split
  · exact h
  · split
    · intro x hx
      exact h x (List.dropLast_subset _ hx)
    · intro x hx
      rcases List.mem_append.mp hx with hx | hx
      · exact h x hx
      · simp at hx
        subst hx
        exact he

theorem takeWhile_eq_dot (c : Char) (rest : List Char) (hc : c ≠ Separator) :
    (c :: rest).takeWhile (· ≠ Separator) = ['.'] ↔
      c = '.' ∧ (rest = [] ∨ rest.head? = some Separator) := by
  cases rest with
  | nil => simp [hc]
  | cons d ds =>
    by_cases hd : d = Separator
    · simp [hc, hd]
    · simp [hc, hd]

theorem takeWhile_eq_dotdot (c : Char) (rest : List Char) (hc : c ≠ Separator) :
    (c :: rest).takeWhile (· ≠ Separator) = ['.', '.'] ↔
      c = '.' ∧ rest.head? = some '.' ∧ (rest.tail = [] ∨ rest.tail.head? = some Separator) := by
  have hc2 : ¬ c = '/' := hc
  cases rest with
  | nil => simp [hc]
  | cons d ds =>
    by_cases hd : d = Separator
    · subst hd
      simp [hc2, Separator]
    · cases ds with
      | nil => simp [hc, hd]
      | cons d2 ds2 =>
        by_cases hd2 : d2 = Separator
        · simp [hc, hd, hd2]
        · simp [hc, hd, hd2]

theorem cleanLoop_step (fuel : Nat) (c : Char) (rest : List Char) (stack : List (List Char))
    (hc : c ≠ Separator) (h : ∀ x ∈ stack, IsName x) :
    cleanLoop true (fuel + 1) (c :: rest) (rootedPath stack) 1 =
      cleanLoop true fuel ((c :: rest).dropWhile (· ≠ Separator))
        (rootedPath (normStep stack ((c :: rest).takeWhile (· ≠ Separator)))) 1 := by
  have hdot := takeWhile_eq_dot c rest hc
  have hdd := takeWhile_eq_dotdot c rest hc
  have hname := takeWhile_isName c rest hc
  have hc2 : ¬ c = '/' := hc
  rw [cleanLoop]
  simp only [if_neg hc]
  by_cases h1 : c = '.' ∧ (rest = [] ∨ rest.head? = some Separator)
  · rw [if_pos h1]
    have he := hdot.mpr h1
    rw [he]
    have hdrop : (c :: rest).dropWhile (· ≠ Separator) = rest := by
      rcases h1 with ⟨_, h1 | h1⟩
      · subst h1
        simp [hc]
      · cases rest with
        | nil => simp [hc]
        | cons d ds =>
          simp at h1
          subst h1
          simp [hc]
    rw [hdrop]
    simp [normStep]
  · rw [if_neg h1]
    by_cases h2 : c = '.' ∧ rest.head? = some '.' ∧
        (rest.tail = [] ∨ rest.tail.head? = some Separator)
    · rw [if_pos h2]
      have he := hdd.mpr h2
      rw [he]
      have hdrop : (c :: rest).dropWhile (· ≠ Separator) = rest.tail := by
        obtain ⟨_, h2a, h2b⟩ := h2
        cases rest with
        | nil => simp at h2a
        | cons d ds =>
          simp at h2a
          subst h2a
          rcases h2b with h2b | h2b
          · simp at h2b
            subst h2b
            simp [hc2, Separator]
          · cases ds with
            | nil => simp [hc2, Separator]
            | cons d2 ds2 =>
              simp at h2b
              subst h2b
              simp [hc2, Separator]
      rw [hdrop]
      have hns : normStep stack ['.', '.'] = stack.dropLast := by simp [normStep]
      rw [hns]
      by_cases hs : stack = []
      · subst hs
        simp [rootedPath, joinSep]
      · obtain ⟨init, e, rfl⟩ : ∃ init e, stack = init ++ [e] :=
          ⟨stack.dropLast, stack.getLast hs, (List.dropLast_append_getLast hs).symm⟩
        have hl : (rootedPath (init ++ [e])).length > 1 := by
          have h0 : (rootedPath (init ++ [e])).length ≠ 1 :=
            fun hh => hs ((rootedPath_length _ h).mp hh)
          have h1 : 1 ≤ (rootedPath (init ++ [e])).length := by simp [rootedPath]
          omega
        rw [if_pos hl, backtrack_rootedPath init e (h e (by simp))]
        simp
    · rw [if_neg h2]
      have hne1 : (c :: rest).takeWhile (· ≠ Separator) ≠ ['.'] := fun hh => h1 (hdot.mp hh)
      have hne2 : (c :: rest).takeWhile (· ≠ Separator) ≠ ['.', '.'] :=
        fun hh => h2 (hdd.mp hh)
      have hns : normStep stack ((c :: rest).takeWhile (· ≠ Separator)) =
          stack ++ [(c :: rest).takeWhile (· ≠ Separator)] := by
        simp only [normStep, hname.1, hne1, hne2, or_self, if_false]
      rw [hns, ← rootedPath_push stack _ h]
      simp

theorem cleanLoop_rooted (fuel : Nat) : ∀ (p : List Char) (stack : List (List Char)),
    p.length ≤ fuel → (∀ x ∈ stack, IsName x) →
      cleanLoop true fuel p (rootedPath stack) 1 = rootedPath (norm stack (splitSep p)) := by
  induction fuel with
  | zero =>
    intro p stack hp _
    have : p = [] := List.length_eq_zero.mp (by omega)
    subst this
    simp [cleanLoop, splitSep, norm_cons, norm_nil, normStep_nil]
  | succ fuel ih =>
    intro p stack hp h
    cases p with
    | nil => simp [cleanLoop, splitSep, norm_cons, norm_nil, normStep_nil]
    | cons c rest =>
      by_cases hc : c = Separator
      · subst hc
        rw [cleanLoop]
        simp only [if_true]
        rw [ih rest stack (by simpa using hp) h]
        simp [splitSep, norm_cons, normStep_nil]
      · rw [cleanLoop_step fuel c rest stack hc h, norm_splitSep_step stack (c :: rest)]
        apply ih
        · have h2 : (c :: rest).dropWhile (· ≠ Separator) = rest.dropWhile (· ≠ Separator) := by
            simp [hc]
          rw [h2]
          have := (List.dropWhile_suffix (l := rest) (· ≠ Separator)).length_le
          simp at hp
          omega
        · exact normStep_names stack _ h (takeWhile_isName c rest hc)

/-- The function `Clean` on a rooted path, in terms of elements. -/
theorem Clean_rooted (p : List Char) :
    Clean (Separator :: p) = rootedPath (norm [] (splitSep p)) := by
  have h := cleanLoop_rooted (p.length + 1) p [] (by omega) (by simp)
  rw [rootedPath_nil] at h
  simp only [Clean, List.cons_ne_nil, if_false, List.head?_cons, decide_True, if_true,
    List.length_cons, List.tail_cons, h]
  simp [rootedPath]

/-! ## Clean rooted paths -/

theorem normStep_real (st : List (List Char)) (e : List Char)
    (h : ∀ x ∈ st, IsReal x) (he : Separator ∉ e) : ∀ x ∈ normStep st e, IsReal x := by
  unfold normStep
  split
  · exact h
  · rename_i h1
    split
    · intro x hx
      exact h x (List.dropLast_subset _ hx)
    · rename_i h2
      intro x hx
      rcases List.mem_append.mp hx with hx | hx
      · exact h x hx
      · simp at hx
        subst hx
        simp only [not_or] at h1
        exact ⟨⟨h1.1, he⟩, h1.2, h2⟩

theorem norm_real (es : List (List Char)) : ∀ (st : List (List Char)),
    (∀ x ∈ st, IsReal x) → (∀ e ∈ es, Separator ∉ e) → ∀ x ∈ norm st es, IsReal x := by
  induction es with
  | nil => intro st h _; simpa [norm_nil] using h
  | cons e es ih =>
    intro st h he
    rw [norm_cons]
    exact ih _ (normStep_real st e h (he e (by simp))) (fun x hx => he x (by simp [hx]))

theorem norm_of_real (es : List (List Char)) : ∀ (st : List (List Char)),
    (∀ e ∈ es, IsReal e) → norm st es = st ++ es := by
  induction es with
  | nil => intro st _; simp [norm_nil]
  | cons e es ih =>
    intro st h
    have he := h e (by simp)
    have hs : normStep st e = st ++ [e] := by
      simp only [normStep, he.1.1, he.2.1, he.2.2, or_self, if_false]
    rw [norm_cons, hs, ih _ (fun x hx => h x (by simp [hx]))]
    simp

theorem norm_splitSep_joinSep (bs st : List (List Char)) (h : ∀ e ∈ bs, IsReal e) :
    norm st (splitSep (joinSep bs)) = st ++ bs := by
  by_cases hb : bs = []
  · subst hb
    simp [joinSep, splitSep, norm_cons, norm_nil, normStep_nil]
  · rw [splitSep_joinSep bs hb (fun e he => (h e he).1.2), norm_of_real bs st h]

/-- Cleaning a rooted path whose elements are names other than `.` and `..` returns it. -/
theorem Clean_rootedPath (bs : List (List Char)) (h : ∀ e ∈ bs, IsReal e) :
    Clean (rootedPath bs) = rootedPath bs := by
  rw [rootedPath, Clean_rooted, norm_splitSep_joinSep bs [] h]
  simp [rootedPath]

/-- An absolute clean path is the rooted path of its elements. -/
theorem exists_elements (B : List Char) (hAbs : IsAbs B = true) (hClean : Clean B = B) :
    ∃ bs : List (List Char), (∀ e ∈ bs, IsReal e) ∧ B = rootedPath bs := by
  cases B with
  | nil => simp [IsAbs] at hAbs
  | cons c p =>
    have hc : c = Separator := by simpa [IsAbs] using hAbs
    subst hc
    refine ⟨norm [] (splitSep p), ?_, ?_⟩
    · exact norm_real _ [] (by simp) (splitSep_no_sep p)
    · rw [← Clean_rooted, hClean]

/-- The cleaned join of a clean rooted base and a raw path, in terms of elements. -/
theorem Clean_join (bs : List (List Char)) (raw : List Char) (h : ∀ e ∈ bs, IsReal e) :
    Clean (Join (rootedPath bs) raw) = rootedPath (norm bs (splitSep raw)) := by
  have hne : rootedPath bs ≠ [] := by simp [rootedPath]
  have h1 : Clean (rootedPath bs ++ Separator :: raw) = rootedPath (norm bs (splitSep raw)) := by
    have : rootedPath bs ++ Separator :: raw = Separator :: (joinSep bs ++ Separator :: raw) := by
      simp [rootedPath]
    rw [this, Clean_rooted, splitSep_append_sep, norm_append, norm_splitSep_joinSep bs [] h]
    simp
  have hreal : ∀ x ∈ norm bs (splitSep raw), IsReal x :=
    norm_real _ bs h (splitSep_no_sep raw)
  simp only [Join, ne_eq, hne, not_false_eq_true, if_true]
  rw [h1, Clean_rootedPath _ hreal]

/-! ## The loop of `Rel` on clean rooted paths -/

theorem takeWhile_append_sep (b rest : List Char) (hb : Separator ∉ b)
    (hr : rest = [] ∨ rest.head? = some Separator) :
    (b ++ rest).takeWhile (· ≠ Separator) = b ∧ (b ++ rest).dropWhile (· ≠ Separator) = rest := by
  induction b with
  | nil =>
    rcases hr with hr | hr
    · subst hr
      simp
    · cases rest with
      | nil => simp
      | cons d ds =>
        simp at hr
        subst hr
        simp
  | cons c cs ih =>
    simp only [List.mem_cons, not_or] at hb
    have hc : c ≠ Separator := fun hh => hb.1 hh.symm
    have := ih hb.2
    simp only [ne_eq, decide_not] at this
    simp [hc, this.1, this.2]

theorem slashed_head (es : List (List Char)) :
    slashed es = [] ∨ (slashed es).head? = some Separator := by
  cases es with
  | nil => left; rfl
  | cons e es => right; rfl

theorem slashed_tail (es : List (List Char)) : (slashed es).tail = joinSep es := by
  cases es with
  | nil => rfl
  | cons e es => rfl

theorem joinSep_ne_nil (e : List Char) (es : List (List Char)) (he : e ≠ []) :
    joinSep (e :: es) ≠ [] := by
  simp [joinSep, he]

theorem relLoop_joinSep (bs : List (List Char)) : ∀ (ts : List (List Char)) (fuel : Nat),
    (∀ e ∈ bs, IsName e) → (∀ e ∈ ts, IsName e) → (joinSep bs).length ≤ fuel →
      relLoop fuel (joinSep bs) (joinSep ts) =
        ((relComps bs ts).1, joinSep (relComps bs ts).2.1, joinSep (relComps bs ts).2.2) := by
  induction bs with
  | nil =>
    intro ts fuel _ _ _
    cases fuel <;> simp [relLoop, relComps, joinSep]
  | cons b bs ih =>
    intro ts fuel hb ht hf
    cases ts with
    | nil => cases fuel <;> simp [relLoop, relComps, joinSep]
    | cons t ts =>
      have hbn := hb b (by simp)
      have htn := ht t (by simp)
      have hjb := joinSep_ne_nil b bs hbn.1
      have hjt := joinSep_ne_nil t ts htn.1
      cases fuel with
      | zero =>
        have : joinSep (b :: bs) = [] := List.length_eq_zero.mp (by omega)
        exact absurd this hjb
      | succ fuel =>
        have hwb := takeWhile_append_sep b (slashed bs) hbn.2 (slashed_head bs)
        have hwt := takeWhile_append_sep t (slashed ts) htn.2 (slashed_head ts)
        rw [relLoop]
        simp only [ne_eq, hjb, not_false_eq_true, hjt, and_self, if_true]
        have ejb : joinSep (b :: bs) = b ++ slashed bs := rfl
        have ejt : joinSep (t :: ts) = t ++ slashed ts := rfl
        by_cases hne : t = b
        · subst hne
          simp only [relComps, ne_eq, not_true_eq_false, if_false]
          rw [ejb, ejt, hwb.1, hwb.2, hwt.1, hwt.2]
          simp only [not_true_eq_false, if_false, slashed_tail]
          apply ih ts fuel (fun x hx => hb x (by simp [hx])) (fun x hx => ht x (by simp [hx]))
          have : (joinSep (t :: bs)).length = t.length + (slashed bs).length := by
            simp [joinSep]
          have h2 : (joinSep bs).length ≤ (slashed bs).length := by
            rw [← slashed_tail]
            simp
          have h3 : 1 ≤ t.length := List.length_pos.mpr hbn.1
          omega
        · simp only [relComps, ne_eq, hne, not_false_eq_true, if_true]
          rw [ejb, ejt, hwb.1, hwt.1]
          simp [hne]

theorem relComps_append (bs ext : List (List Char)) :
    relComps bs (bs ++ ext) = ([], [], ext) := by
  induction bs with
  | nil => rfl
  | cons b bs ih => simp [relComps, ih]

theorem relComps_rest (bs : List (List Char)) : ∀ ts : List (List Char),
    (∃ ext, ts = bs ++ ext) ∨
      (∃ b rest, (relComps bs ts).2.1 = b :: rest ∧ b ∈ bs) := by
  induction bs with
  | nil => intro ts; left; exact ⟨ts, rfl⟩
  | cons b bs ih =>
    intro ts
    cases ts with
    | nil => right; exact ⟨b, bs, rfl, by simp⟩
    | cons t ts =>
      by_cases hne : t = b
      · subst hne
        rcases ih ts with ⟨ext, h⟩ | ⟨b2, rest, h1, h2⟩
        · left; exact ⟨ext, by simp [h]⟩
        · right; exact ⟨b2, rest, by simpa [relComps] using h1, by simp [h2]⟩
      · right; exact ⟨b, bs, by simp [relComps, hne], by simp⟩

theorem joinSep_eq_nil (es : List (List Char)) (h : ∀ e ∈ es, IsName e)
    (hj : joinSep es = []) : es = [] := by
  cases es with
  | nil => rfl
  | cons e es => exact absurd hj (joinSep_ne_nil e es (h e (by simp)).1)

theorem joinSep_inj (bs ts : List (List Char)) (hb : ∀ e ∈ bs, IsName e)
    (ht : ∀ e ∈ ts, IsName e) (h : joinSep ts = joinSep bs) : ts = bs := by
  by_cases hbn : bs = []
  · subst hbn
    exact joinSep_eq_nil ts ht h
  · by_cases htn : ts = []
    · subst htn
      exact (joinSep_eq_nil bs hb h.symm).symm
    · rw [← splitSep_joinSep ts htn (fun e he => (ht e he).2),
        ← splitSep_joinSep bs hbn (fun e he => (hb e he).2), h]

theorem relLoop_rooted (bs ts : List (List Char)) (hb : ∀ e ∈ bs, IsName e)
    (ht : ∀ e ∈ ts, IsName e) :
    relLoop (rootedPath bs).length (rootedPath bs) (rootedPath ts) =
      ((relComps bs ts).1, joinSep (relComps bs ts).2.1, joinSep (relComps bs ts).2.2) := by
  have hl : (rootedPath bs).length = (joinSep bs).length + 1 := by simp [rootedPath]
  rw [hl, relLoop]
  simp only [rootedPath, ne_eq, List.cons_ne_nil, not_false_eq_true, and_self, if_true]
  have hw : ∀ q : List Char, (Separator :: q).takeWhile (· ≠ Separator) = [] := by
    intro q; simp
  have hd : ∀ q : List Char, (Separator :: q).dropWhile (· ≠ Separator) = Separator :: q := by
    intro q; simp
  rw [hw, hw, hd, hd]
  simp only [not_true_eq_false, if_false, List.tail_cons]
  exact relLoop_joinSep bs ts _ hb ht (le_refl _)

/-- The function `Rel` on two clean rooted paths, in terms of elements. -/
theorem Rel_rooted (bs ts : List (List Char)) (hb : ∀ e ∈ bs, IsReal e)
    (ht : ∀ e ∈ ts, IsReal e) (hne : ts ≠ bs) :
    Rel (rootedPath bs) (rootedPath ts) =
      if (relComps bs ts).1 = ['.', '.'] then
        .error (relError (rootedPath bs) (rootedPath ts))
      else if joinSep (relComps bs ts).2.1 ≠ [] then
        .ok (['.', '.'] ++
          (List.replicate ((joinSep (relComps bs ts).2.1).count Separator)
            [Separator, '.', '.']).flatten ++
          (if joinSep (relComps bs ts).2.2 ≠ [] then Separator :: joinSep (relComps bs ts).2.2
            else []))
      else .ok (joinSep (relComps bs ts).2.2) := by
  have hbn : ∀ e ∈ bs, IsName e := fun e he => (hb e he).1
  have htn : ∀ e ∈ ts, IsName e := fun e he => (ht e he).1
  have hne2 : rootedPath ts ≠ rootedPath bs := by
    intro hh
    apply hne
    apply joinSep_inj bs ts hbn htn
    simpa [rootedPath] using hh
  have hdot : rootedPath bs ≠ ['.'] := by simp [rootedPath, Separator]
  unfold Rel
  simp only [Clean_rootedPath bs hb, Clean_rootedPath ts ht, hne2, if_false, hdot]
  rw [relLoop_rooted bs ts hbn htn]
  simp [rootedPath]

theorem contains_dotdot_head (q : List Char) : Contains ('.' :: '.' :: q) ['.', '.'] = true := by
  simp [contains_cons_cons]

/-- A target that passes `isInBaseDir` for a clean rooted base extends the elements of
the base. -/
theorem isInBaseDir_extends (bs ts : List (List Char)) (hb : ∀ e ∈ bs, IsReal e)
    (ht : ∀ e ∈ ts, IsReal e) (h : isInBaseDir (rootedPath ts) (rootedPath bs) = true) :
    ∃ ext, ts = bs ++ ext := by
  rcases relComps_rest bs ts with hx | ⟨b, rest, h1, h2⟩
  · exact hx
  · by_cases hne : ts = bs
    · exact ⟨[], by simp [hne]⟩
    · exfalso
      have hj : joinSep (relComps bs ts).2.1 ≠ [] := by
        rw [h1]
        exact joinSep_ne_nil b rest (hb b h2).1.1
      unfold isInBaseDir at h
      rw [Rel_rooted bs ts hb ht hne] at h
      by_cases hd : (relComps bs ts).1 = ['.', '.']
      · rw [if_pos hd] at h
        simp at h
      · rw [if_neg hd, if_pos hj] at h
        simp only [List.cons_append, List.nil_append, contains_dotdot_head] at h
        simp at h

/-- For a target that extends the elements of the base, `isInBaseDir` tests whether the
joined extension contains `..`. -/
theorem isInBaseDir_append (bs ext : List (List Char)) (hb : ∀ e ∈ bs, IsReal e)
    (he : ∀ e ∈ ext, IsReal e) :
    isInBaseDir (rootedPath (bs ++ ext)) (rootedPath bs) = !Contains (joinSep ext) ['.', '.'] := by
  by_cases hx : ext = []
  · subst hx
    simp only [List.append_nil, isInBaseDir, Rel, if_true]
    simp [joinSep, contains_nil, contains_single]
  · have hne : bs ++ ext ≠ bs := by
      intro hh
      apply hx
      simpa using hh
    have ht : ∀ e ∈ bs ++ ext, IsReal e := by
      intro e hm
      rcases List.mem_append.mp hm with hm | hm
      · exact hb e hm
      · exact he e hm
    unfold isInBaseDir
    rw [Rel_rooted bs (bs ++ ext) hb ht hne, relComps_append]
    simp [joinSep]

/-! ## `sanitize` in terms of elements -/

theorem initSecureFS_root (env : Env) (s : Option SecureFS) :
    initSecureFS env s [Separator] = (none, some rootStore) := by
  have h : Clean [Separator] = [Separator] := by decide
  simp [initSecureFS, Abs, IsAbs, h, rootStore]

theorem sanitize_initialised (env : Env) (fs : SecureFS) (raw : List Char) (h : raw ≠ []) :
    sanitize env (some fs) raw =
      (if IsAbs raw then .error errAbsolutePath
        else if fs.allowRelative && Contains raw ['.', '.'] then .error errRelativePath
        else if !isInBaseDir (Clean (Join fs.safeBaseDir raw)) fs.safeBaseDir then
          .error errOutOfBase
        else .ok (Clean (Join fs.safeBaseDir raw)), some fs) := by
  simp only [sanitize, h, if_false, Option.isNone_some, Bool.false_eq_true]
  split_ifs <;> rfl

theorem sanitize_uninitialised (env : Env) (raw : List Char) (h : raw ≠ []) :
    sanitize env none raw = sanitize env (some rootStore) raw := by
  simp only [sanitize, h, if_false, Option.isNone_none, if_true, initSecureFS_root,
    Option.isNone_some, Bool.false_eq_true]

theorem sanitize_store (env : Env) (fs : SecureFS) (raw : List Char) :
    (sanitize env (some fs) raw).2 = some fs := by
  by_cases h : raw = []
  · simp [sanitize, h]
  · rw [sanitize_initialised env fs raw h]

/-- The outcome of `sanitize` for a relative raw path that passes the mode check, when
the base is the rooted path of the elements `bs`. -/
theorem sanitize_elements (env : Env) (fs : SecureFS) (raw : List Char)
    (bs : List (List Char)) (hb : ∀ e ∈ bs, IsReal e) (hB : fs.safeBaseDir = rootedPath bs)
    (h : raw ≠ []) (hrel : IsAbs raw = false)
    (hmode : (fs.allowRelative && Contains raw ['.', '.']) = false) :
    sanitize env (some fs) raw =
      (if isInBaseDir (rootedPath (norm bs (splitSep raw))) (rootedPath bs) then
          .ok (rootedPath (norm bs (splitSep raw)))
        else .error errOutOfBase, some fs) := by
  rw [sanitize_initialised env fs raw h, hB, Clean_join bs raw hb, hrel, hmode]
  by_cases hin : isInBaseDir (rootedPath (norm bs (splitSep raw))) (rootedPath bs) = true
  · simp [hin]
  · simp [hin]

theorem rootedPath_eq_root (bs : List (List Char)) (h : ∀ e ∈ bs, IsName e) :
    rootedPath bs = [Separator] ↔ bs = [] := by
  constructor
  · intro hh
    exact (rootedPath_length bs h).mp (by rw [hh]; rfl)
  · intro hh
    subst hh
    rfl

theorem rootedPath_append (bs ext : List (List Char)) (hb : bs ≠ []) (he : ext ≠ []) :
    rootedPath (bs ++ ext) = rootedPath bs ++ Separator :: joinSep ext := by
  rw [rootedPath_of_ne_nil _ (by simp [hb]), rootedPath_of_ne_nil _ hb, slashed_append]
  cases ext with
  | nil => exact absurd rfl he
  | cons e es => rfl

/-- A rooted path that extends the elements of a base is the base or lies under it. -/
theorem rootedPath_descendant (bs ext : List (List Char)) :
    rootedPath (bs ++ ext) = rootedPath bs ∨
      (rootedPath bs ++ [Separator]) <+: rootedPath (bs ++ ext) ∨
      (rootedPath bs = [Separator] ∧ [Separator] <+: rootedPath (bs ++ ext)) := by
  by_cases he : ext = []
  · left
    simp [he]
  · right
    by_cases hb : bs = []
    · right
      subst hb
      exact ⟨rfl, ⟨joinSep ext, rfl⟩⟩
    · left
      rw [rootedPath_append bs ext hb he]
      exact ⟨joinSep ext, by simp⟩

theorem contains_dotdot_self : Contains ['.', '.'] ['.', '.'] = true := by decide

theorem norm_no_dotdot (es : List (List Char)) : ∀ st : List (List Char),
    (∀ e ∈ es, e ≠ ['.', '.']) →
      norm st es = st ++ es.filter (fun e => decide (e ≠ [] ∧ e ≠ ['.'])) := by
  induction es with
  | nil => intro st _; simp [norm_nil]
  | cons e es ih =>
    intro st h
    have he := h e (by simp)
    rw [norm_cons, ih _ (fun x hx => h x (by simp [hx]))]
    by_cases h1 : e = [] ∨ e = ['.']
    · have hf : decide (e ≠ [] ∧ e ≠ ['.']) = false := by
        simp only [decide_eq_false_iff_not, not_and_or, not_not]
        exact h1
      simp only [normStep, h1, if_true, List.filter_cons, hf]
      simp
    · have hf : decide (e ≠ [] ∧ e ≠ ['.']) = true := by
        simp only [decide_eq_true_eq]
        simpa [not_or] using h1
      simp only [normStep, h1, if_false, he, List.filter_cons, hf, if_true]
      simp

theorem splitSep_no_dotdot (raw : List Char) (h : Contains raw ['.', '.'] = false) :
    ∀ e ∈ splitSep raw, Contains e ['.', '.'] = false := by
  have h2 := contains_joinSep (splitSep raw)
  rw [joinSep_splitSep, h] at h2
  intro e he
  by_contra hc
  have : (splitSep raw).any (fun e => Contains e ['.', '.']) = true :=
    List.any_eq_true.mpr ⟨e, he, by simpa using hc⟩
  rw [this] at h2
  exact absurd h2 (by simp)

/-- The outcome of `sanitize` for a non-empty relative raw path without `..`, when the
base is the rooted path of the elements `bs`: the elements of the raw path other than the
empty one and `.` are appended to the base. -/
theorem sanitize_no_dotdot (env : Env) (fs : SecureFS) (raw : List Char)
    (bs : List (List Char)) (hb : ∀ e ∈ bs, IsReal e) (hB : fs.safeBaseDir = rootedPath bs)
    (h : raw ≠ []) (hrel : IsAbs raw = false) (hdd : Contains raw ['.', '.'] = false) :
    sanitize env (some fs) raw =
      (.ok (rootedPath
        (bs ++ (splitSep raw).filter (fun e => decide (e ≠ [] ∧ e ≠ ['.'])))), some fs) := by
  have hparts := splitSep_no_dotdot raw hdd
  have hne : ∀ e ∈ splitSep raw, e ≠ ['.', '.'] := by
    intro e he hh
    have := hparts e he
    rw [hh, contains_dotdot_self] at this
    exact absurd this (by simp)
  have hreal : ∀ e ∈ (splitSep raw).filter (fun e => decide (e ≠ [] ∧ e ≠ ['.'])),
      IsReal e := by
    intro e he
    rw [List.mem_filter] at he
    have h1 := he.2
    simp only [decide_eq_true_eq] at h1
    exact ⟨⟨h1.1, splitSep_no_sep raw e he.1⟩, h1.2, hne e he.1⟩
  have hext : Contains
      (joinSep ((splitSep raw).filter (fun e => decide (e ≠ [] ∧ e ≠ ['.'])))) ['.', '.'] =
      false := by
    rw [contains_joinSep]
    apply Bool.eq_false_iff.mpr
    intro hany
    obtain ⟨e, he, hc⟩ := List.any_eq_true.mp hany
    have := hparts e (List.mem_filter.mp he).1
    rw [this] at hc
    exact absurd hc (by simp)
  rw [sanitize_elements env fs raw bs hb hB h hrel (by simp [hdd]), norm_no_dotdot _ bs hne,
    isInBaseDir_append bs _ hb hreal, hext]
  simp


theorem joinSep_eq_intercalate (es : List (List Char)) :
    joinSep es = List.intercalate [Separator] es := by
  induction es with
  | nil => rfl
  | cons e es ih =>
    cases es with
    | nil => simp [joinSep, slashed, List.intercalate]
    | cons e2 es2 =>
      have h : joinSep (e :: e2 :: es2) = e ++ Separator :: joinSep (e2 :: es2) := rfl
      rw [h, ih]
      simp [List.intercalate]

theorem contains_of_no_dot (raw : List Char) (h : '.' ∉ raw) :
    Contains raw ['.', '.'] = false := by
  induction raw with
  | nil => rfl
  | cons c cs ih =>
    simp only [List.mem_cons, not_or] at h
    cases cs with
    | nil => exact contains_single c
    | cons d ds =>
      rw [contains_cons_cons, ih h.2]
      have : ('.' == c) = false := by simpa using h.1
      simp [this]

theorem isAbs_eq_false (raw : List Char) (h : raw.head? ≠ some '/') : IsAbs raw = false := by
  simpa [IsAbs, Separator] using h

/-! ## The claims -/

/-- C1 (as stated, refuted): with the base `/` in Default mode the raw path `etc` is
accepted with result `/etc`, which is neither the base nor a path that starts with the
base followed by a separator, i.e. with `//`. -/
theorem sanitize_root_result_not_base_slash :
    IsAbs ['/'] = true ∧ Clean ['/'] = ['/'] ∧
      (sanitize envRoot (some (storeAt ['/'] false false)) "etc".toList).1 =
        .ok "/etc".toList ∧
      "/etc".toList ≠ ['/'] ∧ ¬ (['/'] ++ ['/']) <+: "/etc".toList := by
  decide

/-- C1 (amended): for every store whose `safeBaseDir` is absolute and lexically clean, in
any mode, and every raw path, a result `r` of `sanitize` equals the base, or starts with
the base followed by a separator, or the base is `/` and `r` starts with `/`. -/
theorem sanitize_contained (env : Env) (fs : SecureFS) (raw r : List Char)
    (hAbs : IsAbs fs.safeBaseDir = true) (hClean : Clean fs.safeBaseDir = fs.safeBaseDir)
    (h : (sanitize env (some fs) raw).1 = .ok r) :
    r = fs.safeBaseDir ∨ (fs.safeBaseDir ++ [Separator]) <+: r ∨
      (fs.safeBaseDir = [Separator] ∧ [Separator] <+: r) := by
  obtain ⟨bs, hb, hB⟩ := exists_elements fs.safeBaseDir hAbs hClean
  by_cases hne : raw = []
  · subst hne
    simp [sanitize] at h
  · rw [sanitize_initialised env fs raw hne] at h
    by_cases h1 : IsAbs raw = true
    · simp [h1] at h
    · by_cases h2 : (fs.allowRelative && Contains raw ['.', '.']) = true
      · simp [h1, h2] at h
      · by_cases h3 : isInBaseDir (Clean (Join fs.safeBaseDir raw)) fs.safeBaseDir = true
        · simp only [h1, h2, h3, if_false, Bool.not_true, Bool.false_eq_true,
            Result.ok.injEq] at h
          rw [hB, Clean_join bs raw hb] at h3
          rw [hB, Clean_join bs raw hb] at h
          have hreal := norm_real (splitSep raw) bs hb (splitSep_no_sep raw)
          obtain ⟨ext, hext⟩ := isInBaseDir_extends bs _ hb hreal h3
          rw [hB, ← h, hext]
          exact rootedPath_descendant bs ext
        · simp [h1, h2, h3] at h

/-- C1 (witness): base `/srv/data`, raw path `./a/../b`. -/
theorem sanitize_contained_witness :
    "/srv/data/b".toList = (storeAt "/srv/data".toList false false).safeBaseDir ∨
      ((storeAt "/srv/data".toList false false).safeBaseDir ++ [Separator]) <+:
        "/srv/data/b".toList ∨
      ((storeAt "/srv/data".toList false false).safeBaseDir = [Separator] ∧
        [Separator] <+: "/srv/data/b".toList) :=
  sanitize_contained envRoot (storeAt "/srv/data".toList false false) "./a/../b".toList
    "/srv/data/b".toList (by decide) (by decide) (by decide)

/-- C2: for every raw path that begins with `/` and every store state, uninitialised or
initialised with any base, mode flags and pattern, `sanitize` fails with the
absolute-path error, and so not with the traversal error. -/
theorem sanitize_rejects_absolute (env : Env) (s : Option SecureFS) (raw : List Char)
    (h : raw.head? = some '/') :
    (sanitize env s raw).1 = .error errAbsolutePath ∧
      (sanitize env s raw).1 ≠ .error errRelativePath := by
  have hne : raw ≠ [] := by
    intro hh
    simp [hh] at h
  have habs : IsAbs raw = true := by simpa [IsAbs, Separator] using h
  have key : ∀ fs : SecureFS, (sanitize env (some fs) raw).1 = .error errAbsolutePath := by
    intro fs
    rw [sanitize_initialised env fs raw hne, habs]
    rfl
  have hs : (sanitize env s raw).1 = .error errAbsolutePath := by
    cases s with
    | none => rw [sanitize_uninitialised env raw hne]; exact key _
    | some fs => exact key fs
  refine ⟨hs, ?_⟩
  rw [hs]
  decide

/-- C2 (witness): mode AllowRelative, raw path `/etc/../passwd`. -/
theorem sanitize_rejects_absolute_witness :
    (sanitize envRoot (some (storeAt "/srv/data".toList true false))
        "/etc/../passwd".toList).1 = .error errAbsolutePath ∧
      (sanitize envRoot (some (storeAt "/srv/data".toList true false))
        "/etc/../passwd".toList).1 ≠ .error errRelativePath :=
  sanitize_rejects_absolute envRoot (some (storeAt "/srv/data".toList true false))
    "/etc/../passwd".toList (by decide)

/-- C3 (as stated, refuted): with the base `/` the raw path `tmp`, which is non-empty,
does not begin with `/` and does not contain `..`, is accepted with result `/tmp`, which
is neither the base nor a path that starts with the base followed by a separator. -/
theorem sanitize_root_plain_not_base_slash :
    IsAbs ['/'] = true ∧ Clean ['/'] = ['/'] ∧ "tmp".toList ≠ [] ∧
      "tmp".toList.head? ≠ some '/' ∧ Contains "tmp".toList ['.', '.'] = false ∧
      (sanitize envRoot (some (storeAt ['/'] true false)) "tmp".toList).1 =
        .ok "/tmp".toList ∧
      "/tmp".toList ≠ ['/'] ∧ ¬ (['/'] ++ ['/']) <+: "/tmp".toList := by
  decide

/-- C3 (amended): for every store whose `safeBaseDir` is absolute and lexically clean, in
any mode, and every non-empty raw path that does not begin with `/` and does not contain
`..`, `sanitize` succeeds and leaves the store unchanged; its result equals the base, or
starts with the base followed by a separator, or the base is `/` and the result starts
with `/`. -/
theorem sanitize_accepts_plain (env : Env) (fs : SecureFS) (raw : List Char)
    (hAbs : IsAbs fs.safeBaseDir = true) (hClean : Clean fs.safeBaseDir = fs.safeBaseDir)
    (hne : raw ≠ []) (hrel : raw.head? ≠ some '/')
    (hdd : Contains raw ['.', '.'] = false) :
    ∃ r, sanitize env (some fs) raw = (.ok r, some fs) ∧
      (r = fs.safeBaseDir ∨ (fs.safeBaseDir ++ [Separator]) <+: r ∨
        (fs.safeBaseDir = [Separator] ∧ [Separator] <+: r)) := by
  obtain ⟨bs, hb, hB⟩ := exists_elements fs.safeBaseDir hAbs hClean
  refine ⟨_, sanitize_no_dotdot env fs raw bs hb hB hne (isAbs_eq_false raw hrel) hdd, ?_⟩
  rw [hB]
  exact rootedPath_descendant bs _

/-- C3 (witness): base `/srv/data`, mode AllowRelative, raw path
`./logs//app.log`. -/
theorem sanitize_accepts_plain_witness :
    ∃ r, sanitize envRoot (some (storeAt "/srv/data".toList true false))
        "./logs//app.log".toList = (.ok r, some (storeAt "/srv/data".toList true false)) ∧
      (r = (storeAt "/srv/data".toList true false).safeBaseDir ∨
        ((storeAt "/srv/data".toList true false).safeBaseDir ++ [Separator]) <+: r ∨
        ((storeAt "/srv/data".toList true false).safeBaseDir = [Separator] ∧
          [Separator] <+: r)) :=
  sanitize_accepts_plain envRoot (storeAt "/srv/data".toList true false)
    "./logs//app.log".toList (by decide) (by decide) (by decide) (by decide) (by decide)

/-- C4 (the code at the failing input): with the base `/srv/data` in Default mode the raw
path `a..b` names a file inside the base, its cleaned join is `/srv/data/a..b`, and
`sanitize` fails with the path-escape error. -/
theorem sanitize_rejects_name_with_dots :
    Clean (Join "/srv/data".toList "a..b".toList) = "/srv/data/a..b".toList ∧
      ("/srv/data".toList ++ [Separator]) <+: "/srv/data/a..b".toList ∧
      sanitize envRoot (some (storeAt "/srv/data".toList false false)) "a..b".toList =
        (.error errOutOfBase, some (storeAt "/srv/data".toList false false)) := by
  decide

/-- C5 (as stated, refuted): with the base `/srv/data` and `allowRelative = true`,
`sanitize` does not return `/srv/data/b` for the raw path `./a/../b`. -/
theorem sanitize_allowRelative_scenario_fails :
    (sanitize envRoot (some (storeAt "/srv/data".toList true false)) "./a/../b".toList).1 ≠
      .ok "/srv/data/b".toList := by
  decide

/-- C5 (amended): with the base `/srv/data` and `allowRelative = true`, whatever the
other fields of the store, `sanitize` rejects the raw path `./a/../b` with the traversal
error, because it contains `..`; with `allowRelative = false` it returns `/srv/data/b`. -/
theorem sanitize_dot_a_dotdot_b (env : Env) (re : Regexp) (strict : Bool) :
    (sanitize env (some ⟨"/srv/data".toList, re, true, strict⟩) "./a/../b".toList).1 =
        .error errRelativePath ∧
      (sanitize env (some ⟨"/srv/data".toList, re, false, strict⟩) "./a/../b".toList).1 =
        .ok "/srv/data/b".toList := by
  have h1 : IsAbs "./a/../b".toList = false := by decide
  have h2 : Contains "./a/../b".toList ['.', '.'] = true := by decide
  have h3 : Clean (Join "/srv/data".toList "./a/../b".toList) = "/srv/data/b".toList := by
    decide
  have h4 : isInBaseDir "/srv/data/b".toList "/srv/data".toList = true := by decide
  constructor
  · rw [sanitize_initialised _ _ _ (by decide)]
    dsimp only
    rw [h1, h2]
    rfl
  · rw [sanitize_initialised _ _ _ (by decide)]
    dsimp only
    rw [h1, h3, h4]
    rfl

/-- C6: for every initialised store and every non-empty raw path that does not begin with
`/`, `sanitize` fails with the traversal error if and only if `allowRelative` is true and
the raw path contains `..`; when `allowRelative` is false no raw path gets that error. -/
theorem sanitize_traversal_error_iff (env : Env) (fs : SecureFS) (raw : List Char)
    (hne : raw ≠ []) (hrel : raw.head? ≠ some '/') :
    ((sanitize env (some fs) raw).1 = .error errRelativePath ↔
        (fs.allowRelative = true ∧ Contains raw ['.', '.'] = true)) ∧
      (fs.allowRelative = false →
        ∀ raw2 : List Char, (sanitize env (some fs) raw2).1 ≠ .error errRelativePath) := by
  have e1 : errAbsolutePath ≠ errRelativePath := by decide
  have e2 : errOutOfBase ≠ errRelativePath := by decide
  have e3 : errEmptyPath ≠ errRelativePath := by decide
  constructor
  · rw [sanitize_initialised env fs raw hne, isAbs_eq_false raw hrel]
    by_cases h2 : (fs.allowRelative && Contains raw ['.', '.']) = true
    · have h2b := h2
      simp only [Bool.and_eq_true] at h2b
      simp [h2, h2b]
    · have h2b := h2
      simp only [Bool.and_eq_true] at h2b
      by_cases h3 : isInBaseDir (Clean (Join fs.safeBaseDir raw)) fs.safeBaseDir = true
      · simp [h2, h3, h2b]
      · simp [h2, h3, h2b, e2]
  · intro hmode raw2
    by_cases h0 : raw2 = []
    · subst h0
      simp [sanitize, e3]
    · rw [sanitize_initialised env fs raw2 h0, hmode]
      by_cases h1 : IsAbs raw2 = true
      · simp [h1, e1]
      · by_cases h3 : isInBaseDir (Clean (Join fs.safeBaseDir raw2)) fs.safeBaseDir = true
        · simp [h1, h3]
        · simp [h1, h3, e2]

/-- C6 (witness): base `/srv/data`, mode AllowRelative, raw
path `a/../b`. -/
theorem sanitize_traversal_error_iff_witness :
    ((sanitize envRoot (some (storeAt "/srv/data".toList true false)) "a/../b".toList).1 =
          .error errRelativePath ↔
        ((storeAt "/srv/data".toList true false).allowRelative = true ∧
          Contains "a/../b".toList ['.', '.'] = true)) ∧
      ((storeAt "/srv/data".toList true false).allowRelative = false →
        ∀ raw2 : List Char,
          (sanitize envRoot (some (storeAt "/srv/data".toList true false)) raw2).1 ≠
            .error errRelativePath) :=
  sanitize_traversal_error_iff envRoot (storeAt "/srv/data".toList true false)
    "a/../b".toList (by decide) (by decide)

/-- C7: `sanitize` of the empty raw path fails with the empty-path error in every store
state and returns the store as it was: an uninitialised store stays uninitialised, an
initialised one is unchanged. -/
theorem sanitize_empty (env : Env) (s : Option SecureFS) :
    sanitize env s [] = (.error errEmptyPath, s) := by
  simp [sanitize]

/-- C8: for every absolute clean base `B`, in any mode, and every raw path made of one or
more segments joined by single separators, each segment non-empty, without separator, not
`.` and not containing `..`, `sanitize` returns `B` followed by a separator and the raw
path, or a separator and the raw path when `B` is `/`, and leaves the store unchanged. -/
theorem sanitize_segments (env : Env) (fs : SecureFS) (segs : List (List Char))
    (hAbs : IsAbs fs.safeBaseDir = true) (hClean : Clean fs.safeBaseDir = fs.safeBaseDir)
    (hne : segs ≠ [])
    (hseg : ∀ e ∈ segs,
      e ≠ [] ∧ Separator ∉ e ∧ e ≠ ['.'] ∧ Contains e ['.', '.'] = false) :
    sanitize env (some fs) (List.intercalate [Separator] segs) =
      (.ok (if fs.safeBaseDir = [Separator] then
          Separator :: List.intercalate [Separator] segs
        else fs.safeBaseDir ++ Separator :: List.intercalate [Separator] segs), some fs) := by
  obtain ⟨bs, hb, hB⟩ := exists_elements fs.safeBaseDir hAbs hClean
  rw [← joinSep_eq_intercalate]
  obtain ⟨e, es, rfl⟩ : ∃ e es, segs = e :: es := by
    cases segs with
    | nil => exact absurd rfl hne
    | cons e es => exact ⟨e, es, rfl⟩
  have he := hseg e (by simp)
  have hraw : joinSep (e :: es) ≠ [] := joinSep_ne_nil e es he.1
  have hrel : IsAbs (joinSep (e :: es)) = false := by
    cases e with
    | nil => exact absurd rfl he.1
    | cons c cs =>
      have hc : ¬ c = Separator := fun hh => he.2.1 (by simp [hh])
      simp [IsAbs, joinSep, hc]
  have hdd : Contains (joinSep (e :: es)) ['.', '.'] = false := by
    rw [contains_joinSep]
    apply Bool.eq_false_iff.mpr
    intro hany
    obtain ⟨x, hx, hc⟩ := List.any_eq_true.mp hany
    rw [(hseg x hx).2.2.2] at hc
    exact absurd hc (by simp)
  have hsplit : splitSep (joinSep (e :: es)) = e :: es :=
    splitSep_joinSep _ hne (fun x hx => (hseg x hx).2.1)
  have hfilter : (e :: es).filter (fun x => decide (x ≠ [] ∧ x ≠ ['.'])) = e :: es := by
    apply List.filter_eq_self.mpr
    intro x hx
    have := hseg x hx
    simp [this.1, this.2.2.1]
  rw [sanitize_no_dotdot env fs _ bs hb hB hraw hrel hdd, hsplit, hfilter, hB]
  by_cases hbs : bs = []
  · subst hbs
    simp [rootedPath, joinSep]
  · have hroot : rootedPath bs ≠ [Separator] :=
      fun hh => hbs ((rootedPath_eq_root bs (fun x hx => (hb x hx).1)).mp hh)
    rw [if_neg hroot, rootedPath_append bs (e :: es) hbs hne]

/-- C8 (witness): base `/srv/data`, raw path `reports/q1.csv`. -/
theorem sanitize_segments_witness :
    sanitize envRoot (some (storeAt "/srv/data".toList false false))
        (List.intercalate [Separator] ["reports".toList, "q1.csv".toList]) =
      (.ok (if (storeAt "/srv/data".toList false false).safeBaseDir = [Separator] then
          Separator :: List.intercalate [Separator] ["reports".toList, "q1.csv".toList]
        else (storeAt "/srv/data".toList false false).safeBaseDir ++
          Separator :: List.intercalate [Separator] ["reports".toList, "q1.csv".toList]),
        some (storeAt "/srv/data".toList false false)) :=
  sanitize_segments envRoot (storeAt "/srv/data".toList false false)
    ["reports".toList, "q1.csv".toList] (by decide) (by decide) (by decide) (by decide)

/-- C9 (as stated, refuted): in Default mode with the default pattern active and the base
`/srv/data`, the raw path `notes.txt` contains a dot, which is neither a word character
nor a hyphen nor a slash, and `sanitize` accepts it. -/
theorem sanitize_default_accepts_dot :
    (storeAt "/srv/data".toList false false).whitelistRegex = MustCompile "^([\\w-/]+)$" ∧
      '.' ∈ "notes.txt".toList ∧ isWordChar '.' = false ∧ '.' ≠ '-' ∧ '.' ≠ '/' ∧
      (sanitize envRoot (some (storeAt "/srv/data".toList false false))
        "notes.txt".toList).1 = .ok "/srv/data/notes.txt".toList := by
  decide

/-- C9 (amended): in Default mode, with an absolute clean base and whatever pattern is
active, `sanitize` accepts every non-empty raw path that consists solely of word
characters, hyphens and slashes and does not begin with `/`, and leaves the store
unchanged. -/
theorem sanitize_default_accepts_whitelisted (env : Env) (fs : SecureFS) (raw : List Char)
    (hAbs : IsAbs fs.safeBaseDir = true) (hClean : Clean fs.safeBaseDir = fs.safeBaseDir)
    (_hmode : fs.allowRelative = false ∧ fs.strictMode = false)
    (hne : raw ≠ []) (hrel : raw.head? ≠ some '/')
    (hchars : ∀ c ∈ raw, isWordChar c = true ∨ c = '-' ∨ c = '/') :
    ∃ r, sanitize env (some fs) raw = (.ok r, some fs) := by
  obtain ⟨bs, hb, hB⟩ := exists_elements fs.safeBaseDir hAbs hClean
  have hdot : '.' ∉ raw := by
    intro hmem
    rcases hchars '.' hmem with h | h | h
    · exact absurd h (by decide)
    · exact absurd h (by decide)
    · exact absurd h (by decide)
  exact ⟨_, sanitize_no_dotdot env fs raw bs hb hB hne (isAbs_eq_false raw hrel)
    (contains_of_no_dot raw hdot)⟩

/-- C9 (witness): base `/srv/data`, raw path
`img-2/a_b`. -/
theorem sanitize_default_accepts_whitelisted_witness :
    ∃ r, sanitize envRoot (some (storeAt "/srv/data".toList false false)) "img-2/a_b".toList =
      (.ok r, some (storeAt "/srv/data".toList false false)) :=
  sanitize_default_accepts_whitelisted envRoot (storeAt "/srv/data".toList false false)
    "img-2/a_b".toList (by decide) (by decide) (by decide) (by decide) (by decide)
    (by decide)

/-- C10: for every store state, the uninitialised one included, and every raw path, a
second call of `sanitize` right after the first returns the same outcome and leaves the
store exactly as the first call left it. -/
theorem sanitize_twice (env : Env) (s : Option SecureFS) (raw : List Char) :
    sanitize env (sanitize env s raw).2 raw = sanitize env s raw := by
  by_cases h : raw = []
  · subst h
    simp [sanitize]
  · cases s with
    | none => rw [sanitize_uninitialised env raw h, sanitize_store]
    | some fs => rw [sanitize_store]

/-! ## The claims on the other operations -/

theorem land_eq_right_iff (a r : Nat) :
    a &&& r = r ↔ ∀ i, r.testBit i = true → a.testBit i = true := by
  constructor
  · intro h i hi
    have := congrArg (fun x => x.testBit i) h
    simp only [Nat.testBit_land, hi, Bool.and_true] at this
    exact this
  · intro h
    apply Nat.eq_of_testBit_eq
    intro i
    rw [Nat.testBit_land]
    cases hr : r.testBit i with
    | false => simp
    | true => simp [h i hr]

theorem perm_high_bit (mode i : Nat) (hi : 9 ≤ i) : (Perm mode).testBit i = false := by
  have h511 : (511 : Nat).testBit i = false :=
    Nat.testBit_lt_two_pow
      (lt_of_lt_of_le (by decide : (511 : Nat) < 2 ^ 9) (Nat.pow_le_pow_right (by decide) hi))
  have hm : ModePerm = 511 := by decide
  simp [Perm, hm, Nat.testBit_land, h511]

/-- C11: `SetWhiteListPattern` fails when the pattern is empty or `regexp.Compile`
rejects it, in every store state, and on every such failure the store is returned as it
was: pattern, base directory and both mode flags are unchanged. -/
theorem SetWhiteListPattern_failure (compile : String → Except String Regexp)
    (s : Option SecureFS) (pattern : String)
    (h : pattern = "" ∨ ∃ err, compile pattern = .error err) :
    ∃ msg, SetWhiteListPattern compile s pattern = (.error msg, s) := by
  unfold SetWhiteListPattern
  by_cases h0 : pattern.length = 0
  · exact ⟨errEmptyPattern, by simp [h0]⟩
  · rcases h with h | ⟨err, h⟩
    · subst h
      exact absurd rfl h0
    · exact ⟨err, by simp [h0, h]⟩

/-- C11 (witness): the empty pattern on a store at `/srv/data`. -/
theorem SetWhiteListPattern_failure_witness :
    ∃ msg, SetWhiteListPattern compileSample (some (storeAt "/srv/data".toList false false)) "" =
      (.error msg, some (storeAt "/srv/data".toList false false)) :=
  SetWhiteListPattern_failure compileSample (some (storeAt "/srv/data".toList false false)) ""
    (Or.inl rfl)

/-- C12: for every initialised store and every non-empty pattern that `regexp.Compile`
accepts, `SetWhiteListPattern` returns the nil error, the active pattern afterwards is
the compiled form of the given pattern, and `safeBaseDir`, `allowRelative` and
`strictMode` are unchanged. -/
theorem SetWhiteListPattern_success (compile : String → Except String Regexp)
    (fs : SecureFS) (pattern : String) (compiled : Regexp)
    (hne : pattern ≠ "") (hc : compile pattern = .ok compiled) :
    SetWhiteListPattern compile (some fs) pattern =
      (.ok (), some ⟨fs.safeBaseDir, compiled, fs.allowRelative, fs.strictMode⟩) := by
  have h0 : ¬ pattern.length = 0 := by
    intro hh
    apply hne
    apply String.ext
    exact List.length_eq_zero.mp hh
  simp [SetWhiteListPattern, h0, hc]

/-- C12 (witness): the pattern `^[a-z]+$` on a store at `/srv/data`. -/
theorem SetWhiteListPattern_success_witness :
    SetWhiteListPattern compileSample (some (storeAt "/srv/data".toList false false))
        "^[a-z]+$" =
      (.ok (), some ⟨(storeAt "/srv/data".toList false false).safeBaseDir, ⟨"^[a-z]+$"⟩,
        (storeAt "/srv/data".toList false false).allowRelative,
        (storeAt "/srv/data".toList false false).strictMode⟩) :=
  SetWhiteListPattern_success compileSample (storeAt "/srv/data".toList false false)
    "^[a-z]+$" ⟨"^[a-z]+$"⟩ (by decide) rfl

/-- C13 (the code at the failing input): on the nil store `SetWhiteListPattern` with the
non-empty pattern `^[a-z]+$`, which compiles, panics on the assignment to `s.whitelistRegex`
and leaves the store nil, whereas `sanitize` on the nil store creates the root store. -/
theorem SetWhiteListPattern_nil_store_panics :
    compileSample "^[a-z]+$" = .ok ⟨"^[a-z]+$"⟩ ∧
      SetWhiteListPattern compileSample none "^[a-z]+$" = (.panic, none) ∧
      (sanitize envRoot none "a".toList).2 = some rootStore :=
  ⟨rfl, rfl, by decide⟩

/-- C15: if `sanitize(name)` fails, `ReadDir` returns no entries together with exactly
that error and the listing capability is invoked on no path; if `sanitize(name)` succeeds
with the path `p`, `ReadDir` returns exactly the entries and the error that the capability
returns for `p`, and the capability is invoked on `p` only.  The store is left as
`sanitize` leaves it. -/
theorem ReadDir_spec {α : Type} (env : Env) (readDir : List Char → List α × Option String)
    (s : Option SecureFS) (name : List Char) :
    (∀ err s1, sanitize env s name = (.error err, s1) →
        ReadDir env readDir s name = (.returned [] (some err), s1, [])) ∧
      (∀ p s1, sanitize env s name = (.ok p, s1) →
        ReadDir env readDir s name = (.returned (readDir p).1 (readDir p).2, s1, [p])) := by
  constructor
  · intro err s1 h
    simp [ReadDir, h]
  · intro p s1 h
    simp [ReadDir, h]

/-- C15 (witness): base `/srv/data`; the name `docs` is listed at `/srv/data/docs`, the
name `/etc` is rejected and nothing is listed. -/
theorem ReadDir_spec_witness :
    ReadDir envRoot readDirSample (some (storeAt "/srv/data".toList false false))
          "docs".toList =
        (.returned (readDirSample "/srv/data/docs".toList).1
          (readDirSample "/srv/data/docs".toList).2,
          some (storeAt "/srv/data".toList false false), ["/srv/data/docs".toList]) ∧
      ReadDir envRoot readDirSample (some (storeAt "/srv/data".toList false false))
          "/etc".toList =
        (.returned [] (some errAbsolutePath),
          some (storeAt "/srv/data".toList false false), []) :=
  ⟨(ReadDir_spec envRoot readDirSample (some (storeAt "/srv/data".toList false false))
      "docs".toList).2 _ _ (by decide),
    (ReadDir_spec envRoot readDirSample (some (storeAt "/srv/data".toList false false))
      "/etc".toList).1 _ _ (by decide)⟩

/-- C20: `checkDirPermissions` returns `false` when `stat` fails; when `stat` succeeds it
returns `true` exactly when every bit set in `required` is set in the permission bits
`mode & 0o777`, hence `true` for `required = 0` and `false` whenever `required` has a bit
set outside the nine permission bits. -/
theorem checkDirPermissions_spec (stat : List Char → Except String Nat) (path : List Char)
    (required : Nat) :
    (∀ err, stat path = .error err → checkDirPermissions stat path required = false) ∧
      (∀ mode, stat path = .ok mode →
        (checkDirPermissions stat path required = true ↔
          ∀ i, required.testBit i = true → (mode &&& 0o777).testBit i = true) ∧
        (required = 0 → checkDirPermissions stat path required = true) ∧
        ((∃ i, 9 ≤ i ∧ required.testBit i = true) →
          checkDirPermissions stat path required = false)) := by
  constructor
  · intro err h
    simp [checkDirPermissions, h]
  · intro mode h
    have hval : checkDirPermissions stat path required =
        ((Perm mode &&& required) == required) := by
      simp [checkDirPermissions, h]
    have hiff : checkDirPermissions stat path required = true ↔
        ∀ i, required.testBit i = true → (Perm mode).testBit i = true := by
      rw [hval, beq_iff_eq]
      exact land_eq_right_iff (Perm mode) required
    refine ⟨hiff, ?_, ?_⟩
    · intro h0
      subst h0
      rw [hiff]
      intro i hi
      simp at hi
    · rintro ⟨i, hi, hbit⟩
      apply Bool.eq_false_iff.mpr
      intro htrue
      have := hiff.mp htrue i hbit
      rw [perm_high_bit mode i hi] at this
      exact absurd this (by simp)

theorem Clean_rooted_fixed (p : List Char) :
    IsAbs (Clean (Separator :: p)) = true ∧
      Clean (Clean (Separator :: p)) = Clean (Separator :: p) := by
  rw [Clean_rooted]
  refine ⟨by simp [IsAbs, rootedPath], ?_⟩
  exact Clean_rootedPath _ (norm_real _ [] (by simp) (splitSep_no_sep p))

theorem Abs_rooted_clean (env : Env) (baseDir absDir : List Char)
    (hwd : ∀ wd, env.Getwd = .ok wd → IsAbs wd = true)
    (h : Abs env baseDir = .ok absDir) :
    IsAbs absDir = true ∧ Clean absDir = absDir := by
  unfold Abs at h
  by_cases hb : IsAbs baseDir = true
  · simp only [hb, if_true, Except.ok.injEq] at h
    cases baseDir with
    | nil => simp [IsAbs] at hb
    | cons c p =>
      have hc : c = Separator := by simpa [IsAbs] using hb
      subst hc
      rw [← h]
      exact Clean_rooted_fixed p
  · simp only [hb, Bool.false_eq_true, if_false] at h
    cases hg : env.Getwd with
    | error err => simp [hg] at h
    | ok wd =>
      simp only [hg, Except.ok.injEq] at h
      have hw := hwd wd hg
      cases wd with
      | nil => simp [IsAbs] at hw
      | cons c w =>
        have hc : c = Separator := by simpa [IsAbs] using hw
        subst hc
        have hj : Join (Separator :: w) baseDir = Clean (Separator :: (w ++ Separator :: baseDir)) := by
          simp [Join]
        rw [← h, hj]
        exact Clean_rooted_fixed _

/-- C14: with `os.Getwd` returning rooted paths, `initSecureFS(baseDir)` fails exactly
when `filepath.Abs(baseDir)` fails, and then leaves the prior store unchanged; when `Abs`
succeeds, whatever the prior store was, the new store has `safeBaseDir` equal to the
absolute form of `baseDir`, which is absolute and lexically clean, both mode flags false
and the Default-mode pattern. -/
theorem initSecureFS_spec (env : Env) (s : Option SecureFS) (baseDir : List Char)
    (hwd : ∀ wd, env.Getwd = .ok wd → IsAbs wd = true) :
    (∀ err, Abs env baseDir = .error err →
        initSecureFS env s baseDir = (some ("securefs初始化失败: " ++ err), s)) ∧
      (∀ absDir, Abs env baseDir = .ok absDir →
        initSecureFS env s baseDir =
            (none, some ⟨absDir, MustCompile "^([\\w-/]+)$", false, false⟩) ∧
          IsAbs absDir = true ∧ Clean absDir = absDir) := by
  constructor
  · intro err h
    simp [initSecureFS, h]
  · intro absDir h
    refine ⟨by simp [initSecureFS, h], Abs_rooted_clean env baseDir absDir hwd h⟩

/-- C14 (witness): working directory `/`, an arbitrary prior store. -/
theorem initSecureFS_spec_witness :
    (∀ err, Abs envRoot "srv/./data".toList = .error err →
        initSecureFS envRoot (some (storeAt "/tmp".toList true true)) "srv/./data".toList =
          (some ("securefs初始化失败: " ++ err), some (storeAt "/tmp".toList true true))) ∧
      (∀ absDir, Abs envRoot "srv/./data".toList = .ok absDir →
        initSecureFS envRoot (some (storeAt "/tmp".toList true true)) "srv/./data".toList =
            (none, some ⟨absDir, MustCompile "^([\\w-/]+)$", false, false⟩) ∧
          IsAbs absDir = true ∧ Clean absDir = absDir) :=
  initSecureFS_spec envRoot (some (storeAt "/tmp".toList true true)) "srv/./data".toList
    (fun wd h => by cases h; rfl)

theorem norm_replicate_dotdot (k : Nat) : norm [] (List.replicate k ['.', '.']) = [] := by
  induction k with
  | zero => rfl
  | succ k ih =>
    rw [List.replicate_succ, norm_cons]
    have : normStep [] ['.', '.'] = [] := by simp [normStep]
    rw [this, ih]

/-- C16: when the store is uninitialised, for every raw path made of `k` leading `..`
segments followed by one or more name segments (each non-empty, without separator, not
`.`, not containing `..`), all joined by single separators, `sanitize` succeeds, returns
`/` followed by the joined name segments, and leaves the store initialised with
`safeBaseDir = "/"` in Default mode. -/
theorem sanitize_lazy_root (env : Env) (k : Nat) (names : List (List Char))
    (hne : names ≠ [])
    (hnames : ∀ e ∈ names,
      e ≠ [] ∧ Separator ∉ e ∧ e ≠ ['.'] ∧ Contains e ['.', '.'] = false) :
    sanitize env none
        (List.intercalate [Separator] (List.replicate k ['.', '.'] ++ names)) =
      (.ok (Separator :: List.intercalate [Separator] names),
        some ⟨[Separator], MustCompile "^([\\w-/]+)$", false, false⟩) := by
  rw [← joinSep_eq_intercalate, ← joinSep_eq_intercalate]
  have hreal : ∀ e ∈ names, IsReal e := by
    intro e he
    have h := hnames e he
    refine ⟨⟨h.1, h.2.1⟩, h.2.2.1, ?_⟩
    intro hh
    have := h.2.2.2
    rw [hh, contains_dotdot_self] at this
    exact absurd this (by simp)
  have hall : ∀ e ∈ List.replicate k ['.', '.'] ++ names, IsName e := by
    intro e he
    rcases List.mem_append.mp he with he | he
    · rw [List.eq_of_mem_replicate he]
      exact ⟨by simp, by simp [Separator]⟩
    · exact (hreal e he).1
  have hlist : List.replicate k ['.', '.'] ++ names ≠ [] := by simp [hne]
  have hraw : joinSep (List.replicate k ['.', '.'] ++ names) ≠ [] := by
    intro hh
    exact hlist (joinSep_eq_nil _ hall hh)
  have hrel : IsAbs (joinSep (List.replicate k ['.', '.'] ++ names)) = false := by
    cases hl : List.replicate k ['.', '.'] ++ names with
    | nil => exact absurd hl hlist
    | cons e es =>
      have he := hall e (by rw [hl]; simp)
      cases e with
      | nil => exact absurd rfl he.1
      | cons c cs =>
        have hc : ¬ c = Separator := fun hh => he.2 (by simp [hh])
        simp [IsAbs, joinSep, hc]
  have hsplit : splitSep (joinSep (List.replicate k ['.', '.'] ++ names)) =
      List.replicate k ['.', '.'] ++ names :=
    splitSep_joinSep _ hlist (fun e he => (hall e he).2)
  have hnorm : norm [] (splitSep (joinSep (List.replicate k ['.', '.'] ++ names))) = names := by
    rw [hsplit, norm_append, norm_replicate_dotdot, norm_of_real names [] hreal]
    simp
  have hin : isInBaseDir (rootedPath names) (rootedPath []) = true := by
    have h := isInBaseDir_append [] names (by simp) hreal
    simp only [List.nil_append] at h
    rw [h, contains_joinSep]
    simp only [Bool.not_eq_true', List.any_eq_false]
    intro e he
    simp [(hnames e he).2.2.2]
  rw [sanitize_uninitialised env _ hraw,
    sanitize_elements env rootStore _ [] (by simp) rfl hraw hrel (by simp [rootStore]),
    hnorm, hin]
  simp [rootedPath, rootStore]

/-- C16 (witness): the raw path `../../etc/passwd`. -/
theorem sanitize_lazy_root_witness :
    sanitize envRoot none
        (List.intercalate [Separator]
          (List.replicate 2 ['.', '.'] ++ ["etc".toList, "passwd".toList])) =
      (.ok (Separator :: List.intercalate [Separator] ["etc".toList, "passwd".toList]),
        some ⟨[Separator], MustCompile "^([\\w-/]+)$", false, false⟩) :=
  sanitize_lazy_root envRoot 2 ["etc".toList, "passwd".toList] (by decide) (by decide)

/-- C17: for every store and every raw path that `sanitize` accepts with result `r`,
`filepath.Rel` from `safeBaseDir` to `r` succeeds and the relative path does not contain
`..`; in particular so for every store with an absolute clean base. -/
theorem sanitize_result_rel (env : Env) (fs : SecureFS) (raw r : List Char)
    (h : (sanitize env (some fs) raw).1 = .ok r) :
    ∃ rel, Rel fs.safeBaseDir r = .ok rel ∧ Contains rel ['.', '.'] = false := by
  by_cases hne : raw = []
  · subst hne
    simp [sanitize] at h
  · rw [sanitize_initialised env fs raw hne] at h
    by_cases h1 : IsAbs raw = true
    · simp [h1] at h
    · by_cases h2 : (fs.allowRelative && Contains raw ['.', '.']) = true
      · simp [h1, h2] at h
      · by_cases h3 : isInBaseDir (Clean (Join fs.safeBaseDir raw)) fs.safeBaseDir = true
        · simp only [h1, h2, h3, if_false, Bool.not_true, Bool.false_eq_true,
            Result.ok.injEq] at h
          rw [h] at h3
          unfold isInBaseDir at h3
          cases hr : Rel fs.safeBaseDir r with
          | error err => simp [hr] at h3
          | ok rel =>
            refine ⟨rel, rfl, ?_⟩
            simpa [hr] using h3
        · simp [h1, h2, h3] at h

/-- C17 (witness): base `/srv/data`, raw path `reports/q1.csv`. -/
theorem sanitize_result_rel_witness :
    ∃ rel, Rel (storeAt "/srv/data".toList false false).safeBaseDir
        "/srv/data/reports/q1.csv".toList = .ok rel ∧
      Contains rel ['.', '.'] = false :=
  sanitize_result_rel envRoot (storeAt "/srv/data".toList false false)
    "reports/q1.csv".toList "/srv/data/reports/q1.csv".toList (by decide)

theorem sanitize_congr_store (env : Env) (fs1 fs2 : SecureFS) (raw : List Char)
    (hb : fs1.safeBaseDir = fs2.safeBaseDir) (ha : fs1.allowRelative = fs2.allowRelative) :
    (sanitize env (some fs1) raw).1 = (sanitize env (some fs2) raw).1 := by
  by_cases hne : raw = []
  · subst hne
    simp [sanitize]
  · rw [sanitize_initialised env fs1 raw hne, sanitize_initialised env fs2 raw hne, hb, ha]

theorem ReadDir_congr {α : Type} (env : Env) (readDir : List Char → List α × Option String)
    (s1 s2 : Option SecureFS) (name : List Char)
    (h : (sanitize env s1 name).1 = (sanitize env s2 name).1) :
    (ReadDir env readDir s1 name).1 = (ReadDir env readDir s2 name).1 ∧
      (ReadDir env readDir s1 name).2.2 = (ReadDir env readDir s2 name).2.2 := by
  rcases h1 : sanitize env s1 name with ⟨r1, t1⟩
  rcases h2 : sanitize env s2 name with ⟨r2, t2⟩
  rw [h1, h2] at h
  simp only at h
  subst h
  cases r1 <;> simp [ReadDir, h1, h2]

theorem SetWhiteListPattern_ok (compile : String → Except String Regexp)
    (s s2 : Option SecureFS) (pattern : String)
    (h : SetWhiteListPattern compile s pattern = (.ok (), s2)) :
    ∃ fs compiled, s = some fs ∧
      s2 = some ⟨fs.safeBaseDir, compiled, fs.allowRelative, fs.strictMode⟩ := by
  unfold SetWhiteListPattern at h
  by_cases h0 : pattern.length = 0
  · simp [h0] at h
  · cases hc : compile pattern with
    | error err => simp [h0, hc] at h
    | ok compiled =>
      cases s with
      | none => simp [h0, hc] at h
      | some fs =>
        simp [h0, hc] at h
        exact ⟨fs, compiled, rfl, h.symm⟩

/-- C18: two stores that agree on `safeBaseDir`, `allowRelative` and `strictMode` give
the same outcome of `sanitize` for every raw path, whatever their patterns; hence after a
successful `SetWhiteListPattern` the outcomes of `sanitize` and of `ReadDir`, and the path
on which `ReadDir` invokes the listing capability, are what they were before it. -/
theorem sanitize_ignores_whitelist (env : Env) (fs1 fs2 : SecureFS) (raw : List Char)
    (hb : fs1.safeBaseDir = fs2.safeBaseDir) (ha : fs1.allowRelative = fs2.allowRelative)
    (_hs : fs1.strictMode = fs2.strictMode) :
    (sanitize env (some fs1) raw).1 = (sanitize env (some fs2) raw).1 ∧
      (∀ (compile : String → Except String Regexp) (s s2 : Option SecureFS)
          (pattern : String),
        SetWhiteListPattern compile s pattern = (.ok (), s2) →
          (sanitize env s2 raw).1 = (sanitize env s raw).1 ∧
            ∀ (readDir : List Char → List String × Option String),
              (ReadDir env readDir s2 raw).1 = (ReadDir env readDir s raw).1 ∧
                (ReadDir env readDir s2 raw).2.2 = (ReadDir env readDir s raw).2.2) := by
  refine ⟨sanitize_congr_store env fs1 fs2 raw hb ha, ?_⟩
  intro compile s s2 pattern h
  obtain ⟨fs, compiled, rfl, rfl⟩ := SetWhiteListPattern_ok compile s s2 pattern h
  have hsan := sanitize_congr_store env
    ⟨fs.safeBaseDir, compiled, fs.allowRelative, fs.strictMode⟩ fs raw rfl rfl
  exact ⟨hsan, fun readDir => ReadDir_congr env readDir _ _ raw hsan⟩

/-- C18 (witness): two stores at `/srv/data` with the patterns `^[a-z]+$` and the default
one, raw path `reports/q1.csv`. -/
theorem sanitize_ignores_whitelist_witness :
    (sanitize envRoot (some ⟨"/srv/data".toList, ⟨"^[a-z]+$"⟩, false, false⟩)
          "reports/q1.csv".toList).1 =
        (sanitize envRoot (some (storeAt "/srv/data".toList false false))
          "reports/q1.csv".toList).1 ∧
      (∀ (compile : String → Except String Regexp) (s s2 : Option SecureFS)
          (pattern : String),
        SetWhiteListPattern compile s pattern = (.ok (), s2) →
          (sanitize envRoot s2 "reports/q1.csv".toList).1 =
              (sanitize envRoot s "reports/q1.csv".toList).1 ∧
            ∀ (readDir : List Char → List String × Option String),
              (ReadDir envRoot readDir s2 "reports/q1.csv".toList).1 =
                  (ReadDir envRoot readDir s "reports/q1.csv".toList).1 ∧
                (ReadDir envRoot readDir s2 "reports/q1.csv".toList).2.2 =
                  (ReadDir envRoot readDir s "reports/q1.csv".toList).2.2) :=
  sanitize_ignores_whitelist envRoot ⟨"/srv/data".toList, ⟨"^[a-z]+$"⟩, false, false⟩
    (storeAt "/srv/data".toList false false) "reports/q1.csv".toList rfl rfl rfl

theorem sanitize_store_cases (env : Env) (s : Option SecureFS) (raw : List Char) :
    (sanitize env s raw).2 = s ∨ (sanitize env s raw).2 = some rootStore := by
  by_cases hne : raw = []
  · subst hne
    left
    simp [sanitize]
  · cases s with
    | none =>
      right
      rw [sanitize_uninitialised env raw hne, sanitize_store]
    | some fs =>
      left
      exact sanitize_store env fs raw

theorem ReadDir_store {α : Type} (env : Env) (readDir : List Char → List α × Option String)
    (s : Option SecureFS) (name : List Char) :
    (ReadDir env readDir s name).2.1 = (sanitize env s name).2 := by
  rcases h : sanitize env s name with ⟨r, t⟩
  cases r <;> simp [ReadDir, h]

theorem defaultMode_rootStore : DefaultMode (some rootStore) := by
  intro fs h
  cases h
  exact ⟨rfl, rfl⟩

theorem step_defaultMode {α : Type} (compile : String → Except String Regexp)
    (readDir : List Char → List α × Option String) (s : Option SecureFS)
    (call : Env × Op) (h : DefaultMode s) : DefaultMode (step compile readDir s call) := by
  obtain ⟨env, op⟩ := call
  cases op with
  | initSecureFS baseDir =>
    simp only [step, initSecureFS]
    cases Abs env baseDir with
    | error err => exact h
    | ok absDir =>
      intro fs hfs
      cases hfs
      exact ⟨rfl, rfl⟩
  | sanitize rawPath =>
    simp only [step]
    rcases sanitize_store_cases env s rawPath with hs | hs
    · rw [hs]; exact h
    · rw [hs]; exact defaultMode_rootStore
  | ReadDir name =>
    simp only [step, ReadDir_store]
    rcases sanitize_store_cases env s name with hs | hs
    · rw [hs]; exact h
    · rw [hs]; exact defaultMode_rootStore
  | SetWhiteListPattern pattern =>
    simp only [step, SetWhiteListPattern]
    by_cases h0 : pattern.length = 0
    · simpa [h0] using h
    · cases hc : compile pattern with
      | error err => simpa [h0, hc] using h
      | ok compiled =>
        cases s with
        | none => simpa [h0, hc] using h
        | some fs0 =>
          simp only [h0, if_false]
          intro fs hfs
          cases hfs
          exact h fs0 rfl

theorem foldl_defaultMode {α : Type} (compile : String → Except String Regexp)
    (readDir : List Char → List α × Option String) (calls : List (Env × Op)) :
    ∀ s, DefaultMode s → DefaultMode (calls.foldl (step compile readDir) s) := by
  induction calls with
  | nil => intro s h; exact h
  | cons c cs ih =>
    intro s h
    exact ih _ (step_defaultMode compile readDir s c h)

theorem sanitize_no_traversal_error (env : Env) (fs : SecureFS) (raw : List Char)
    (hmode : fs.allowRelative = false) :
    (sanitize env (some fs) raw).1 ≠ .error errRelativePath := by
  have e1 : errAbsolutePath ≠ errRelativePath := by decide
  have e2 : errOutOfBase ≠ errRelativePath := by decide
  have e3 : errEmptyPath ≠ errRelativePath := by decide
  by_cases h0 : raw = []
  · subst h0
    simp [sanitize, e3]
  · rw [sanitize_initialised env fs raw h0, hmode]
    by_cases h1 : IsAbs raw = true
    · simp [h1, e1]
    · by_cases h3 : isInBaseDir (Clean (Join fs.safeBaseDir raw)) fs.safeBaseDir = true
      · simp [h1, h3]
      · simp [h1, h3, e2]

/-- C19: in every store state reached from the nil store by a sequence of `initSecureFS`,
`sanitize`, `ReadDir` and `SetWhiteListPattern` calls, made in any environments, a store
that exists has `allowRelative = false` and `strictMode = false`, and `sanitize` does not
return the traversal error for any raw path. -/
theorem reachable_default_mode {α : Type} (compile : String → Except String Regexp)
    (readDir : List Char → List α × Option String) (calls : List (Env × Op)) :
    (∀ fs, run compile readDir calls = some fs →
        fs.allowRelative = false ∧ fs.strictMode = false) ∧
      (∀ (env : Env) (raw : List Char),
        (sanitize env (run compile readDir calls) raw).1 ≠ .error errRelativePath) := by
  have hinv : DefaultMode (run compile readDir calls) :=
    foldl_defaultMode compile readDir calls none (by intro fs h; cases h)
  refine ⟨hinv, ?_⟩
  intro env raw
  cases hs : run compile readDir calls with
  | some fs => exact sanitize_no_traversal_error env fs raw (hinv fs hs).1
  | none =>
    by_cases h0 : raw = []
    · subst h0
      have e3 : errEmptyPath ≠ errRelativePath := by decide
      simp [sanitize, e3]
    · rw [sanitize_uninitialised env raw h0]
      exact sanitize_no_traversal_error env rootStore raw rfl

/-- C19 (witness): a failed `SetWhiteListPattern` on the nil store, a `sanitize`, then a
successful `SetWhiteListPattern`. -/
theorem reachable_default_mode_witness :
    (⟨[Separator], ⟨"^a$"⟩, false, false⟩ : SecureFS).allowRelative = false ∧
      (⟨[Separator], ⟨"^a$"⟩, false, false⟩ : SecureFS).strictMode = false :=
  (reachable_default_mode compileSample readDirSample
    [(envRoot, Op.SetWhiteListPattern "["), (envRoot, Op.sanitize "a".toList),
      (envRoot, Op.SetWhiteListPattern "^a$")]).1 _ (by decide)

/-- C20 (witness): a directory of mode `drwxr-x---` and a required mask with the tenth
bit set. -/
theorem checkDirPermissions_spec_witness :
    checkDirPermissions statSample "/srv".toList 512 = false :=
  ((checkDirPermissions_spec statSample "/srv".toList 512).2 _ rfl).2.2
    ⟨9, le_refl 9, by decide⟩

end GoSafe
